import Mathlib

/-!
# Verification of the rc-hashmap container (structural / counted / refcounted layers)

This file is a shallow embedding of the three-layer reference-counted hash
map from the repository:

* `SlotMap` / `DefaultKey` model the generational slot arena (the `slotmap`
  crate as used by `src/handle_hash_map.rs`): a slot holds a generation and
  an optional occupant; a key resolves iff the indexed slot carries the
  key's generation and is occupied.  Allocation reuses the first free slot,
  bumping its generation, so stale keys never alias a new occupant.
* `HandleHashMap` models `src/handle_hash_map.rs`: a hash index (a list of
  `(stored hash, slot key)` pairs, standing for the `hashbrown::HashTable`
  whose elements are located by the hash supplied at insertion time)
  layered over the slot arena.  The hasher is passed explicitly as a
  function `hashF : K → Nat`.
* `Counted` / counted-map operations model `src/counted_hash_map.rs`, with
  `UsizeCount` from `src/tokens.rs` (a 64-bit count that aborts on
  overflow) and the outstanding linear tokens tracked as ghost state.
* The `Rc`-layer definitions model `src/rc_hash_map.rs`: owner identity,
  the per-entry keepalive strong count, `Ref` accessors, clone and drop.

Machine integers (`usize` counts, `u64` hashes) are modelled as `Nat`; the
`usize` increment is taken modulo `2 ^ 64` with the source's abort-on-wrap
made explicit as an `Option` failure.  Functions that can panic in Rust
(`expect`, `unwrap`, the count underflow assert, `Token`'s `Drop`) return
`Option`/`Except` values whose `none`/`error` case is the panic.
-/

namespace RcHashMap

/-- Embeds `slotmap::DefaultKey`: a generational key `(slot index, generation)`. -/
structure DefaultKey where
  idx : Nat
  gen : Nat
deriving DecidableEq, Repr

/-- One slot of the generational arena: current generation plus optional
occupant. -/
structure Slot (A : Type) where
  gen : Nat
  val : Option A
deriving Repr

/-- The generational arena `slotmap::SlotMap` specialised to `DefaultKey`. -/
structure SlotMap (A : Type) where
  slots : List (Slot A)
deriving Repr

namespace SlotMap

variable {A : Type}

/-- Embeds `SlotMap::get`: a key resolves iff its slot exists, carries the key's
generation and is occupied. -/
def get (m : SlotMap A) (k : DefaultKey) : Option A :=
  match m.slots[k.idx]? with
  | some s => if s.gen = k.gen then s.val else none
  | none => none

/-- Index of the first free (unoccupied) slot, if any. -/
def findFreeAux : List (Slot A) → Nat → Option Nat
  | [], _ => none
  | s :: rest, i => if s.val.isNone then some i else findFreeAux rest (i + 1)

/-- Embeds `SlotMap::insert`: reuse the first free slot with a bumped generation,
or append a fresh slot.  Returns the new key and the updated arena. -/
def insert (m : SlotMap A) (a : A) : DefaultKey × SlotMap A :=
  match findFreeAux m.slots 0 with
  | some i =>
    match m.slots[i]? with
    | some s => (⟨i, s.gen + 1⟩, ⟨m.slots.set i ⟨s.gen + 1, some a⟩⟩)
    | none => (⟨m.slots.length, 0⟩, ⟨m.slots ++ [⟨0, some a⟩]⟩)
  | none => (⟨m.slots.length, 0⟩, ⟨m.slots ++ [⟨0, some a⟩]⟩)

/-- Embeds `SlotMap::remove`: if the key resolves, clear the slot and return the
occupant; otherwise leave the arena unchanged. -/
def remove (m : SlotMap A) (k : DefaultKey) : Option A × SlotMap A :=
  match m.slots[k.idx]? with
  | some s =>
    if s.gen = k.gen then
      match s.val with
      | some a => (some a, ⟨m.slots.set k.idx ⟨s.gen, none⟩⟩)
      | none => (none, m)
    else (none, m)
  | none => (none, m)

/-- In-place update of the occupant a key resolves to (used for the
`Cell`-style refcount mutation of the counted layer). -/
def modify (m : SlotMap A) (k : DefaultKey) (f : A → A) : SlotMap A :=
  match m.slots[k.idx]? with
  | some s =>
    if s.gen = k.gen then ⟨m.slots.set k.idx ⟨s.gen, s.val.map f⟩⟩ else m
  | none => m

/-- Embeds `SlotMap::len`: number of occupied slots. -/
def len (m : SlotMap A) : Nat :=
  (m.slots.filter (fun s => s.val.isSome)).length

end SlotMap

/-- Erase the first element satisfying `p` (the effect of
`hashbrown::hash_table::OccupiedEntry::remove` on our list model of the
index). -/
def eraseFirst (p : α → Bool) : List α → List α
  | [] => []
  | a :: as => if p a then as else a :: eraseFirst p as

/-- A stored entry of the structural map: `Entry { key, value, hash }`
(`src/handle_hash_map.rs`).  The hash is computed at insertion time and
never recomputed. -/
structure Entry (K V : Type) where
  key : K
  value : V
  hash : Nat
deriving Repr

/-- Embeds `InsertError` from `src/handle_hash_map.rs`. -/
inductive InsertError
  | DuplicateKey
deriving DecidableEq, Repr

/-- The structural map `HandleHashMap`: a hash index over a slot arena.
The index models `hashbrown::HashTable<DefaultKey>`: each element is
stored together with the hash under which it was inserted (the table
locates elements by that hash; the per-entry hash is stable, so resizes
preserve it). -/
structure HandleHashMap (K V : Type) where
  index : List (Nat × DefaultKey)
  slots : SlotMap (Entry K V)

/-- Observable events of structural-map operations, used to state ordering
claims.  Each constructor corresponds to one effect in the Rust source:
`slotRemove` is `self.slots.remove(k)`, `indexUnlink` is
`self.index.find_entry(hash, ..).remove()`, `buildEntry` is the
construction `let entry = Entry { key, value, hash }` and `dropEntry` is
the implicit drop of that local `Entry` when a branch does not store or
return it. -/
inductive Ev (K V : Type)
  | slotRemove (k : DefaultKey)
  | indexUnlink (h : Nat) (k : DefaultKey)
  | buildEntry (key : K) (value : V) (h : Nat)
  | dropEntry (key : K) (value : V) (h : Nat)
deriving DecidableEq, Repr

/-- Result of `HandleHashMap::remove`: `stale` is the `None` early return
for a non-resolving handle, `panicked` is the `unwrap` failure when the
index has no element for the removed slot, and `removed` carries the
yielded `(K, V)`, the new map, and the event trace in execution order. -/
inductive RemoveResult (K V : Type)
  | stale
  | panicked
  | removed (key : K) (value : V) (m : HandleHashMap K V) (events : List (Ev K V))

namespace HandleHashMap

variable {K V : Type} [DecidableEq K]

/-- The probe predicate used by `find`/`contains_key`/`insert`: the
element's stored hash matches and the slot it points to resolves to an
entry whose key equals the query (`self.slots.get(k).map(|e| e.key == q)
.unwrap_or(false)`). -/
def entryKeyIs (slots : SlotMap (Entry K V)) (dk : DefaultKey) (q : K) : Bool :=
  match slots.get dk with
  | some e => decide (e.key = q)
  | none => false

/-- Embeds `HashTable::find(hash, pred)` on the index. -/
def probe (m : HandleHashMap K V) (h : Nat) (q : K) : Option (Nat × DefaultKey) :=
  m.index.find? fun p => p.1 == h && entryKeyIs m.slots p.2 q

/-- Embeds `HandleHashMap::find`. -/
def find (hashF : K → Nat) (m : HandleHashMap K V) (q : K) : Option DefaultKey :=
  (m.probe (hashF q) q).map (·.2)

/-- Embeds `HandleHashMap::contains_key`. -/
def containsKey (hashF : K → Nat) (m : HandleHashMap K V) (q : K) : Bool :=
  (m.probe (hashF q) q).isSome

/-- Embeds `HandleHashMap::insert` with its event trace.  The entry
`{key, value, hash}` is built before probing; on a duplicate the map is
returned unchanged and the entry is dropped; otherwise the slot is
inserted and the index element is stored at the reserved position. -/
def insertTr (hashF : K → Nat) (m : HandleHashMap K V) (key : K) (value : V) :
    Except InsertError DefaultKey × HandleHashMap K V × List (Ev K V) :=
  let hash := hashF key
  match m.probe hash key with
  | some _ =>
      (.error .DuplicateKey, m, [.buildEntry key value hash, .dropEntry key value hash])
  | none =>
      let (dk, slots') := m.slots.insert ⟨key, value, hash⟩
      (.ok dk, ⟨m.index ++ [(hash, dk)], slots'⟩, [.buildEntry key value hash])

/-- Embeds `HandleHashMap::insert` (events dropped). -/
def insert (hashF : K → Nat) (m : HandleHashMap K V) (key : K) (value : V) :
    Except InsertError DefaultKey × HandleHashMap K V :=
  let r := m.insertTr hashF key value
  (r.1, r.2.1)

/-- Embeds `HandleHashMap::insert_with`, instrumented: the value-producing thunk
is a state transformer `σ → V × σ` so that its invocations are
observable.  It runs only in the vacant branch, exactly as in the
source. -/
def insertWithCnt (hashF : K → Nat) (m : HandleHashMap K V) (key : K)
    (default : σ → V × σ) (st : σ) :
    Except InsertError DefaultKey × HandleHashMap K V × σ :=
  let hash := hashF key
  match m.probe hash key with
  | some _ => (.error .DuplicateKey, m, st)
  | none =>
      let (value, st') := default st
      let (dk, slots') := m.slots.insert ⟨key, value, hash⟩
      (.ok dk, ⟨m.index ++ [(hash, dk)], slots'⟩, st')

/-- Embeds `HandleHashMap::remove`, with the event trace in execution order:
the slot is removed first (yielding the stored entry and its hash), then
the index element for that slot is unlinked, then `(K, V)` is returned. -/
def removeTr (m : HandleHashMap K V) (handle : DefaultKey) : RemoveResult K V :=
  match m.slots.remove handle with
  | (some e, slots') =>
      if (m.index.find? fun p => p.1 == e.hash && p.2 == handle).isSome then
        .removed e.key e.value
          ⟨eraseFirst (fun p => p.1 == e.hash && p.2 == handle) m.index, slots'⟩
          [.slotRemove handle, .indexUnlink e.hash handle]
      else .panicked
  | (none, _) => .stale

/-- Embeds `HandleHashMap::handle_key`. -/
def handleKey (m : HandleHashMap K V) (h : DefaultKey) : Option K :=
  (m.slots.get h).map (·.key)

/-- Embeds `HandleHashMap::handle_value`. -/
def handleValue (m : HandleHashMap K V) (h : DefaultKey) : Option V :=
  (m.slots.get h).map (·.value)

/-- The write half of `HandleHashMap::handle_value_mut`: store a new value
through a handle (no-op on a stale handle, which in the source returns
`None`). -/
def handleValueSet (m : HandleHashMap K V) (h : DefaultKey) (v : V) :
    HandleHashMap K V :=
  ⟨m.index, m.slots.modify h fun e => ⟨e.key, v, e.hash⟩⟩

/-- Embeds `HandleHashMap::len`. -/
def len (m : HandleHashMap K V) : Nat :=
  m.slots.len

end HandleHashMap

/-! ## Counter and linear token (`src/tokens.rs`) -/

/-- The modulus of Rust's `usize` on the 64-bit targets the crate runs on. -/
def USIZE : Nat := 2 ^ 64

namespace UsizeCount

/-- Embeds `UsizeCount::get`: `count.wrapping_add(1)`, storing the result and
aborting when it wrapped to zero.  `none` is the abort. -/
def get (c : Nat) : Option Nat :=
  let n := (c + 1) % USIZE
  if n = 0 then none else some n

/-- Embeds `UsizeCount::put`: asserts `count > 0` (the `none` case is the panic),
decrements, consumes the token via `mem::forget`, and reports whether the
count became zero. -/
def put (c : Nat) : Option (Nat × Bool) :=
  if c = 0 then none else some (c - 1, decide (c - 1 = 0))

end UsizeCount

/-- The message of `Token`'s `Drop` implementation. -/
def tokenDropMsg : String := "Token dropped without Count::put"

/-- Embeds `impl Drop for Token`: running the drop glue of a token
unconditionally panics (`error`); tokens may only be consumed by
`Count::put`, which forgets them without running this glue. -/
def Token.dropGlue : Except String Unit := .error tokenDropMsg

/-- A micro-program over one `UsizeCount` and the tokens acquired from
it: `state = (count, number of tokens currently held)`. -/
structure TokSt where
  count : Nat
  held : Nat
deriving DecidableEq, Repr

/-- Operations a client of the counter can perform with the tokens it
holds. -/
inductive TokOp
  | get
  | put
  | dropTok
deriving DecidableEq, Repr

/-- One step of a token program: `get` acquires (aborting on overflow),
`put` returns a held token to the counter (which forgets it — no drop
glue runs), and `dropTok` lets a held token go out of scope, which runs
`Token.dropGlue`.  Steps that need a token while none is held do
nothing. -/
def tokStep (s : TokSt) : TokOp → Except String TokSt
  | .get =>
    match UsizeCount.get s.count with
    | some n => .ok ⟨n, s.held + 1⟩
    | none => .error "abort: count overflow"
  | .put =>
    if s.held = 0 then .ok s
    else
      match UsizeCount.put s.count with
      | some (n, _) => .ok ⟨n, s.held - 1⟩
      | none => .error "UsizeCount underflow"
  | .dropTok =>
    if s.held = 0 then .ok s
    else Token.dropGlue.map fun _ => ⟨s.count, s.held - 1⟩

/-- Run a token program from a state. -/
def tokRun (s : TokSt) : List TokOp → Except String TokSt
  | [] => .ok s
  | op :: ops => (tokStep s op).bind fun s2 => tokRun s2 ops

/-! ## Counted map (`src/counted_hash_map.rs`) -/

/-- Embeds `Counted { refcount, value }`: the per-entry counter co-located with
the user value. -/
structure Counted (V : Type) where
  refcount : Nat
  value : V
deriving DecidableEq, Repr

/-- Embeds `CountedHashMap` wraps the structural map, storing `Counted` values. -/
abbrev CountedHashMap (K V : Type) := HandleHashMap K (Counted V)

/-- Embeds `PutResult` from `src/counted_hash_map.rs`. -/
inductive PutResult (K V : Type)
  | Live
  | Removed (key : K) (value : V)
deriving DecidableEq, Repr

namespace CountedHashMap

variable {K V : Type} [DecidableEq K]

/-- Store a new count into the counter cell of the entry a handle
resolves to (the effect of the `Cell::set` inside `UsizeCount`). -/
def setCount (m : CountedHashMap K V) (h : DefaultKey) (n : Nat) :
    CountedHashMap K V :=
  ⟨m.index, m.slots.modify h fun e => ⟨e.key, ⟨n, e.value.value⟩, e.hash⟩⟩

/-- Embeds `CountedHashMap::insert`: insert with initial count 0, then mint one
token (count becomes 1).  The outer `none` is a panic (`expect`) or the
counter's abort. -/
def insertC (hashF : K → Nat) (m : CountedHashMap K V) (key : K) (value : V) :
    Option (Except InsertError DefaultKey × CountedHashMap K V) :=
  match HandleHashMap.insert hashF m key ⟨0, value⟩ with
  | (.error e, m') => some (.error e, m')
  | (.ok h, m') =>
    match m'.handleValue h with
    | none => none
    | some c =>
      match UsizeCount.get c.refcount with
      | none => none
      | some n => some (.ok h, setCount m' h n)

/-- Embeds `CountedHashMap::insert_with`: delegate to the structural
`insert_with` with the wrapped thunk `|| Counted::new(default(), 0)`,
then mint a token on success. -/
def insertWithC (hashF : K → Nat) (m : CountedHashMap K V) (key : K)
    (default : σ → V × σ) (st : σ) :
    Option (Except InsertError DefaultKey × CountedHashMap K V × σ) :=
  match HandleHashMap.insertWithCnt hashF m key
      (fun s => let (v, s') := default s; (⟨0, v⟩, s')) st with
  | (.error e, m', st') => some (.error e, m', st')
  | (.ok h, m', st') =>
    match m'.handleValue h with
    | none => none
    | some c =>
      match UsizeCount.get c.refcount with
      | none => none
      | some n => some (.ok h, setCount m' h n, st')

/-- Embeds `CountedHashMap::find`: on a hit, mint an additional token for the
existing entry.  Returns `some (none, m)` when the key is absent; the
outer `none` is the counter's abort. -/
def findC (hashF : K → Nat) (m : CountedHashMap K V) (q : K) :
    Option (Option DefaultKey × CountedHashMap K V) :=
  match HandleHashMap.find hashF m q with
  | none => some (none, m)
  | some h =>
    match m.handleValue h with
    | none => some (none, m)
    | some c =>
      match UsizeCount.get c.refcount with
      | none => none
      | some n => some (some h, setCount m h n)

/-- Embeds `CountedHashMap::get`: mint another token for the entry of an
existing counted handle (`expect`s that the handle still resolves). -/
def getC (m : CountedHashMap K V) (h : DefaultKey) :
    Option (DefaultKey × CountedHashMap K V) :=
  match m.handleValue h with
  | none => none
  | some c =>
    match UsizeCount.get c.refcount with
    | none => none
    | some n => some (h, setCount m h n)

/-- Embeds `CountedHashMap::put`: release the token to the entry's counter (the
count is decremented in place first); when the count hits zero, remove
the entry from the structural map and yield the owned key and value. -/
def putC (m : CountedHashMap K V) (h : DefaultKey) :
    Option (PutResult K V × CountedHashMap K V) :=
  match m.handleValue h with
  | none => none
  | some c =>
    match UsizeCount.put c.refcount with
    | none => none
    | some (n, nowZero) =>
      let m1 := setCount m h n
      if nowZero then
        match m1.removeTr h with
        | .removed k cv m2 _ => some (.Removed k cv.value, m2)
        | _ => none
      else some (.Live, m1)

end CountedHashMap

/-- State of the counted map together with the ghost multiset of
outstanding linear tokens (each token is recorded as the handle of the
entry it was minted for). -/
structure CState (K V : Type) where
  map : CountedHashMap K V
  outstanding : List DefaultKey

/-- Client operations on the counted map.  `get` and `put` refer to one
of the tokens the client currently holds by its position in the
outstanding list; an out-of-range position means the client has no such
token and no call happens. -/
inductive COp (K V : Type)
  | insert (k : K) (v : V)
  | find (k : K)
  | get (i : Nat)
  | put (i : Nat)

/-- One operation of the counted-map state machine.  `none` means the
underlying call panicked or aborted. -/
def stepOp [DecidableEq K] (hashF : K → Nat) (s : CState K V) :
    COp K V → Option (CState K V)
  | .insert k v =>
    (CountedHashMap.insertC hashF s.map k v).map fun r =>
      match r with
      | (.ok h, m') => ⟨m', h :: s.outstanding⟩
      | (.error _, m') => ⟨m', s.outstanding⟩
  | .find k =>
    (CountedHashMap.findC hashF s.map k).map fun r =>
      match r with
      | (some h, m') => ⟨m', h :: s.outstanding⟩
      | (none, m') => ⟨m', s.outstanding⟩
  | .get i =>
    match s.outstanding[i]? with
    | none => some s
    | some h =>
      (CountedHashMap.getC s.map h).map fun r => ⟨r.2, r.1 :: s.outstanding⟩
  | .put i =>
    match s.outstanding[i]? with
    | none => some s
    | some h =>
      (CountedHashMap.putC s.map h).map fun r =>
        ⟨r.2, s.outstanding.erase h⟩

/-- The empty counted map with no outstanding tokens. -/
def CState.init (K V : Type) : CState K V := ⟨⟨[], ⟨[]⟩⟩, []⟩

/-- Run a sequence of operations from a state. -/
def runOps [DecidableEq K] (hashF : K → Nat) (s : CState K V) :
    List (COp K V) → Option (CState K V)
  | [] => some s
  | op :: ops => (stepOp hashF s op).bind fun s2 => runOps hashF s2 ops

/-! ## Refcounted public map (`src/rc_hash_map.rs`) -/

/-- Embeds `RcVal { value, keepalive_token }`: the stored-value wrapper.  The
keepalive token is zero-sized; the number of such tokens outstanding is
tracked as `RcState.strong`. -/
structure RcVal (V : Type) where
  value : V
deriving DecidableEq, Repr

/-- The public map's state: the owner identity (the address of the
shared `Inner` allocation), the counted map storing `RcVal`-wrapped
values, and the keepalive strong count (one unit per live entry's
keepalive token). -/
structure RcState (K V : Type) where
  id : Nat
  map : CountedHashMap K (RcVal V)
  strong : Nat

/-- Embeds `Ref { owner_ptr, handle, counted_token }`: the public reference.
The linear token it carries is ghost state (see `CState.outstanding`). -/
structure Ref where
  owner : Nat
  handle : DefaultKey
deriving DecidableEq, Repr

/-- Embeds `WrongMap`: owner-mismatch error for `Ref` accessors. -/
structure WrongMap where
deriving DecidableEq, Repr

/-- Events of `Ref::drop` in the removal case, one per source effect:
`entryRemoved` is the structural removal inside `CountedHashMap::put`,
`dropKey` / `dropValue` are the explicit `drop(key)` / `drop(user_value)`
calls, and `keepaliveRelease` is `inner.keepalive.put(keepalive_token)`. -/
inductive REv (K V : Type)
  | entryRemoved (h : DefaultKey)
  | dropKey (key : K)
  | dropValue (value : V)
  | keepaliveRelease
deriving DecidableEq, Repr

namespace RcState

variable {K V : Type} [DecidableEq K]

/-- Embeds `RcHashMap::len`. -/
def lenR (s : RcState K V) : Nat := s.map.len

/-- Embeds `RcHashMap::contains_key`. -/
def containsKeyR (hashF : K → Nat) (s : RcState K V) (q : K) : Bool :=
  HandleHashMap.containsKey hashF s.map q

/-- Embeds `RcHashMap::insert`: uses the counted map's `insert_with` with the
thunk `|| RcVal { value, keepalive_token: keepalive.get() }`, so the
keepalive token is acquired (strong count incremented) only on a
successful insert.  Also returns the `Ref`-drop-style event trace: on a
duplicate the closure that captured `value` is dropped, dropping the
value; on success the value was moved into the entry. -/
def insertR (hashF : K → Nat) (s : RcState K V) (key : K) (value : V) :
    Option (Except InsertError Ref × RcState K V × List (REv K V)) :=
  match CountedHashMap.insertWithC hashF s.map key
      (fun (strong : Nat) => (⟨value⟩, strong + 1)) s.strong with
  | none => none
  | some (.ok h, m', strong') =>
      some (.ok ⟨s.id, h⟩, ⟨s.id, m', strong'⟩, [])
  | some (.error e, m', strong') =>
      some (.error e, ⟨s.id, m', strong'⟩, [.dropValue value])

/-- Embeds `RcHashMap::find`. -/
def findR (hashF : K → Nat) (s : RcState K V) (q : K) :
    Option (Option Ref × RcState K V) :=
  match CountedHashMap.findC hashF s.map q with
  | none => none
  | some (none, m') => some (none, ⟨s.id, m', s.strong⟩)
  | some (some h, m') => some (some ⟨s.id, h⟩, ⟨s.id, m', s.strong⟩)

end RcState

namespace Ref

variable {K V : Type} [DecidableEq K]

/-- Embeds `CountedHandle::value_ref` as used by `Ref::value`. -/
def countedValueRef (m : CountedHashMap K (RcVal V)) (h : DefaultKey) :
    Option (RcVal V) :=
  (m.handleValue h).map (·.value)

/-- Embeds `Ref::key(&map)`: validate owner identity (`check_owner`), then
`key_ref(..).ok_or(WrongMap)`. -/
def keyA (r : Ref) (m : RcState K V) : Except WrongMap K :=
  if r.owner = m.id then
    match m.map.handleKey r.handle with
    | some k => .ok k
    | none => .error ⟨⟩
  else .error ⟨⟩

/-- Embeds `Ref::value(&map)`. -/
def valueA (r : Ref) (m : RcState K V) : Except WrongMap V :=
  if r.owner = m.id then
    match countedValueRef m.map r.handle with
    | some rv => .ok rv.value
    | none => .error ⟨⟩
  else .error ⟨⟩

/-- Embeds `Ref::value_mut(&mut map)`: an early owner check, then `check_owner`
again, then the lookup, mirroring the source's two checks. -/
def valueMutA (r : Ref) (m : RcState K V) : Except WrongMap V :=
  if r.owner ≠ m.id then .error ⟨⟩
  else if r.owner = m.id then
    match countedValueRef m.map r.handle with
    | some rv => .ok rv.value
    | none => .error ⟨⟩
  else .error ⟨⟩

/-- Embeds `Ref::clone`: mint a new token for the same entry via the counted
map's `get`; only the per-entry counter is touched. -/
def cloneR (s : RcState K V) (r : Ref) : Option (Ref × RcState K V) :=
  (CountedHashMap.getC s.map r.handle).map fun p =>
    (⟨r.owner, p.1⟩, ⟨s.id, p.2, s.strong⟩)

/-- Embeds `Ref::drop` with its event trace: return the token via `put`; on
`Removed { key, value }` destructure the `RcVal`, `drop(key)`, then
`drop(user_value)`, then release the keepalive token to the container
strong count. -/
def dropTr (s : RcState K V) (r : Ref) :
    Option (RcState K V × List (REv K V)) :=
  match CountedHashMap.putC s.map r.handle with
  | none => none
  | some (.Live, m') => some (⟨s.id, m', s.strong⟩, [])
  | some (.Removed k rv, m') =>
      some (⟨s.id, m', s.strong - 1⟩,
        [.entryRemoved r.handle, .dropKey k, .dropValue rv.value,
          .keepaliveRelease])

/-- Embeds `ref.clone()` followed by dropping the clone. -/
def cloneThenDrop (s : RcState K V) (r : Ref) : Option (RcState K V) :=
  (cloneR s r).bind fun p => (dropTr p.2 p.1).map (·.1)

end Ref

/-- Modelled from the spec: the drop order the specification asserts for
the removal performed by the last `Ref::drop` — entry removed from the
map, then the value `V` dropped, then the key `K` dropped, then the
container-keepalive token released. -/
def specDropOrder {K V : Type} (h : DefaultKey) (key : K) (value : V) :
    List (REv K V) :=
  [.entryRemoved h, .dropValue value, .dropKey key, .keepaliveRelease]

/-- Modelled from the spec: the step order the specification asserts for
the structural `remove` — unlink the index entry first, then remove the
slot. -/
def specRemoveOrder {K V : Type} (h : Nat) (k : DefaultKey) : List (Ev K V) :=
  [.indexUnlink h k, .slotRemove k]

/-- Projection of `RemoveResult`: the event trace of a successful
removal. -/
def RemoveResult.eventsOf {K V : Type} : RemoveResult K V → Option (List (Ev K V))
  | .removed _ _ _ evs => some evs
  | _ => none

/-! ## The liveness invariant of the counted map -/

/-- Structural invariant of the counted map: every index element points at
a live slot storing its hash (which the hasher agrees with), every live
slot is indexed, and index elements point at pairwise distinct slots. -/
structure SInv {K V : Type} (hashF : K → Nat) (m : CountedHashMap K V) : Prop where
  sound : ∀ p ∈ m.index, ∃ e, m.slots.get p.2 = some e ∧
    e.hash = p.1 ∧ hashF e.key = p.1
  complete : ∀ dk e, m.slots.get dk = some e → (e.hash, dk) ∈ m.index
  distinct : m.index.Pairwise (fun p q => p.2 ≠ q.2)

/-- Full invariant of the counted-map state machine: the structural
invariant, token balance (each live entry's count equals the number of
outstanding tokens for it, is positive and below the abort bound), and
token liveness (every outstanding token's handle resolves). -/
structure Inv {K V : Type} (hashF : K → Nat) (s : CState K V) : Prop where
  sinv : SInv hashF s.map
  counts : ∀ dk e, s.map.slots.get dk = some e →
    e.value.refcount = s.outstanding.count dk ∧
      1 ≤ e.value.refcount ∧ e.value.refcount < USIZE
  live : ∀ dk ∈ s.outstanding, (s.map.slots.get dk).isSome = true

/-! ## Concrete states used by witnesses and counterexamples -/

/-- A constant hasher (collisions allowed; witnesses use it). -/
def hfConst : Nat → Nat := fun _ => 0

/-- Concrete structural map holding the single entry `5 ↦ 42` (hash 0) in
slot 0. -/
def mWitA : HandleHashMap Nat Nat := ⟨[(0, ⟨0, 0⟩)], ⟨[⟨0, some ⟨5, 42, 0⟩⟩]⟩⟩

/-- Concrete counted map: key 1, value 10, refcount 2. -/
def mWitB : CountedHashMap Nat Nat :=
  ⟨[(0, ⟨0, 0⟩)], ⟨[⟨0, some ⟨1, ⟨2, 10⟩, 0⟩⟩]⟩⟩

/-- Concrete counted map: key 1, value 10, refcount 1. -/
def mWitC : CountedHashMap Nat Nat :=
  ⟨[(0, ⟨0, 0⟩)], ⟨[⟨0, some ⟨1, ⟨1, 10⟩, 0⟩⟩]⟩⟩

/-- Concrete public-map state: owner id 7, single entry `5 ↦ 42` with
per-entry count 1, keepalive strong count 3. -/
def sWitRc : RcState Nat Nat :=
  ⟨7, ⟨[(0, ⟨0, 0⟩)], ⟨[⟨0, some ⟨5, ⟨1, ⟨42⟩⟩, 0⟩⟩]⟩⟩, 3⟩

/-- As `sWitRc` but with per-entry count 2. -/
def sWitRc2 : RcState Nat Nat :=
  ⟨7, ⟨[(0, ⟨0, 0⟩)], ⟨[⟨0, some ⟨5, ⟨2, ⟨42⟩⟩, 0⟩⟩]⟩⟩, 3⟩

/-- A `Ref` minted by container 7 for the entry in slot 0. -/
def rWit : Ref := ⟨7, ⟨0, 0⟩⟩

/-- A different, empty container with owner id 8. -/
def sWitOther : RcState Nat Nat := ⟨8, ⟨[], ⟨[]⟩⟩, 0⟩

/-- Operation sequence for the liveness witness. -/
def opsWit : List (COp Nat Nat) := [.insert 1 10, .find 1]

/-- The state `opsWit` reaches from the empty map: one entry `1 ↦ 10`
with count 2 and two outstanding tokens. -/
def sWitRun : CState Nat Nat :=
  ⟨⟨[(0, ⟨0, 0⟩)], ⟨[⟨0, some ⟨1, ⟨2, 10⟩, 0⟩⟩]⟩⟩, [⟨0, 0⟩, ⟨0, 0⟩]⟩

/-! ## Auxiliary list lemmas -/

theorem eraseFirst_sublist (p : α → Bool) : ∀ l : List α, (eraseFirst p l).Sublist l
  | [] => .slnil
  | a :: as => by
    simp only [eraseFirst]
    split
    · exact (List.Sublist.refl as).cons a
    · exact (eraseFirst_sublist p as).cons₂ a

theorem mem_eraseFirst_of_not (p : α → Bool) {x : α} (hx : p x = false) :
    ∀ {l : List α}, x ∈ l → x ∈ eraseFirst p l := by
  intro l
  induction l with
  | nil => intro h; exact absurd h (List.not_mem_nil x)
  | cons a as ih =>
    intro h
    simp only [eraseFirst]
    rcases List.mem_cons.mp h with rfl | hmem
    · rw [hx]; simp
    · split
      · exact hmem
      · exact List.mem_cons_of_mem a (ih hmem)

theorem eraseFirst_mem_pairwise {R : α → α → Prop} (p : α → Bool) :
    ∀ {l : List α}, l.Pairwise R → ∀ {x}, x ∈ eraseFirst p l → p x = true →
      ∃ y ∈ l, p y = true ∧ R y x := by
  intro l
  induction l with
  | nil => intro _ x hx; simp [eraseFirst] at hx
  | cons a as ih =>
    intro hpw x hx hpx
    simp only [eraseFirst] at hx
    rcases List.pairwise_cons.mp hpw with ⟨hra, hpw'⟩
    by_cases hpa : p a = true
    · rw [if_pos hpa] at hx
      exact ⟨a, List.mem_cons_self a as, hpa, hra x hx⟩
    · rw [if_neg hpa] at hx
      rcases List.mem_cons.mp hx with rfl | hmem
      · exact absurd hpx hpa
      · rcases ih hpw' hmem hpx with ⟨y, hy, hpy, hr⟩
        exact ⟨y, List.mem_cons_of_mem a hy, hpy, hr⟩

theorem countP_set_aux (p : α → Bool) :
    ∀ (l : List α) (i : Nat) (a b : α), l[i]? = some b →
      (l.set i a).countP p + (if p b then 1 else 0) =
        l.countP p + (if p a then 1 else 0)
  | [], i, a, b => by simp
  | c :: cs, 0, a, b => by
    intro h
    simp only [List.getElem?_cons_zero, Option.some.injEq] at h
    subst h
    simp only [List.set_cons_zero, List.countP_cons]
    omega
  | c :: cs, i + 1, a, b => by
    intro h
    simp only [List.getElem?_cons_succ] at h
    have := countP_set_aux p cs i a b h
    simp only [List.set_cons_succ, List.countP_cons]
    omega

theorem set_self_eq : ∀ (l : List α) (i : Nat) (a : α), l[i]? = some a →
      l.set i a = l
  | [], i, a => by simp
  | c :: cs, 0, a => by
    intro h
    simp only [List.getElem?_cons_zero, Option.some.injEq] at h
    subst h
    simp
  | c :: cs, i + 1, a => by
    intro h
    simp only [List.getElem?_cons_succ] at h
    simp [set_self_eq cs i a h]

/-! ## SlotMap lemmas -/

namespace SlotMap

variable {A : Type}

theorem get_eq_some_iff {m : SlotMap A} {k : DefaultKey} {a : A} :
    m.get k = some a ↔
      ∃ s, m.slots[k.idx]? = some s ∧ s.gen = k.gen ∧ s.val = some a := by
  unfold get
  cases h : m.slots[k.idx]? with
  | none => simp
  | some s =>
    by_cases hg : s.gen = k.gen
    · simp [hg]
    · simp [hg]

theorem findFreeAux_some {i : Nat} :
    ∀ {l : List (Slot A)} {n : Nat}, findFreeAux l n = some i →
      n ≤ i ∧ ∃ s, l[i - n]? = some s ∧ s.val = none := by
  intro l
  induction l with
  | nil => intro n h; simp [findFreeAux] at h
  | cons s rest ih =>
    intro n h
    simp only [findFreeAux] at h
    by_cases hv : s.val.isNone
    · rw [if_pos hv] at h
      cases h
      refine ⟨Nat.le_refl _, s, ?_, Option.isNone_iff_eq_none.mp hv⟩
      simp
    · rw [if_neg hv] at h
      rcases ih h with ⟨hle, t, hget, hnone⟩
      refine ⟨Nat.le_of_succ_le hle, t, ?_, hnone⟩
      have : i - n = (i - (n + 1)) + 1 := by omega
      rw [this, List.getElem?_cons_succ]
      exact hget

/-- Shape lemma for `insert`: either a free slot is reused with a bumped
generation, or a fresh slot is appended. -/
theorem insert_cases (m : SlotMap A) (a : A) :
    (∃ i s, m.slots[i]? = some s ∧ s.val = none ∧
       m.insert a = (⟨i, s.gen + 1⟩, ⟨m.slots.set i ⟨s.gen + 1, some a⟩⟩)) ∨
    m.insert a = (⟨m.slots.length, 0⟩, ⟨m.slots ++ [⟨0, some a⟩]⟩) := by
  cases hf : findFreeAux m.slots 0 with
  | none =>
    right
    simp only [insert, hf]
  | some i =>
    rcases findFreeAux_some hf with ⟨-, s, hget, hnone⟩
    simp only [Nat.sub_zero] at hget
    left
    refine ⟨i, s, hget, hnone, ?_⟩
    simp only [insert, hf, hget]

/-- The key returned by `insert` did not resolve before the insertion. -/
theorem insert_fresh (m : SlotMap A) (a : A) : m.get (m.insert a).1 = none := by
  rcases insert_cases m a with ⟨i, s, hget, hnone, heq⟩ | heq <;> rw [heq] <;>
    unfold get
  · rw [hget]
    have : ¬ s.gen = s.gen + 1 := by omega
    simp [this]
  · have : m.slots[m.slots.length]? = none := by
      simp
    rw [this]

/-- The key returned by `insert` resolves to the inserted value. -/
theorem get_insert_self (m : SlotMap A) (a : A) :
    (m.insert a).2.get (m.insert a).1 = some a := by
  rcases insert_cases m a with ⟨i, s, hget, hnone, heq⟩ | heq <;> rw [heq] <;>
    unfold get <;> simp only
  · have hlt : i < m.slots.length := by
      rcases List.getElem?_eq_some.mp hget with ⟨h, -⟩; exact h
    rw [List.getElem?_set_self hlt]
    simp
  · rw [List.getElem?_concat_length]
    simp

/-- Any other key resolves exactly as before the insertion. -/
theorem get_insert_other (m : SlotMap A) (a : A) {k : DefaultKey}
    (hk : k ≠ (m.insert a).1) : (m.insert a).2.get k = m.get k := by
  rcases insert_cases m a with ⟨i, s, hget, hnone, heq⟩ | heq <;> rw [heq] at hk ⊢ <;>
    unfold get <;> simp only
  · by_cases hidx : k.idx = i
    · subst hidx
      have hgen : k.gen ≠ s.gen + 1 := by
        intro hg
        exact hk (by cases k; simp_all)
      have hlt : k.idx < m.slots.length := (List.getElem?_eq_some.mp hget).1
      rw [List.getElem?_set_self hlt, hget]
      by_cases hsg : s.gen = k.gen
      · simp [hsg, hnone, Ne.symm hgen]
      · have : ¬ (s.gen + 1 = k.gen) := fun h => hgen h.symm
        simp [this, hsg]
    · rw [List.getElem?_set_ne (by omega)]
  · rcases Nat.lt_trichotomy k.idx m.slots.length with hidx | hidx | hidx
    · rw [List.getElem?_append_left hidx]
    · have hgen : k.gen ≠ 0 := by
        intro hg
        exact hk (by cases k; simp_all)
      have hnone : m.slots[m.slots.length]? = none := by simp
      rw [hidx, List.getElem?_concat_length, hnone]
      simp [Ne.symm hgen]
    · have h1 : (m.slots ++ [(⟨0, some a⟩ : Slot A)])[k.idx]? = none := by
        apply List.getElem?_eq_none
        simp only [List.length_append, List.length_cons, List.length_nil]
        omega
      have h2 : m.slots[k.idx]? = none := by
        apply List.getElem?_eq_none
        omega
      rw [h1, h2]

theorem len_eq_countP (m : SlotMap A) :
    m.len = m.slots.countP (fun s => s.val.isSome) := by
  rw [len, List.countP_eq_length_filter]

theorem len_insert (m : SlotMap A) (a : A) : (m.insert a).2.len = m.len + 1 := by
  rcases insert_cases m a with ⟨i, s, hget, hnone, heq⟩ | heq <;> rw [heq] <;>
    simp only [len_eq_countP]
  · have := countP_set_aux (fun s => s.val.isSome) m.slots i ⟨s.gen + 1, some a⟩ s hget
    simp [hnone] at this
    omega
  · simp [List.countP_append, List.countP_cons]

theorem remove_of_get_none {m : SlotMap A} {k : DefaultKey}
    (h : m.get k = none) : m.remove k = (none, m) := by
  unfold get at h
  unfold remove
  cases hs : m.slots[k.idx]? with
  | none => rfl
  | some s =>
    rw [hs] at h
    dsimp only at h ⊢
    by_cases hg : s.gen = k.gen
    · rw [if_pos hg] at h ⊢
      rw [h]
    · rw [if_neg hg]

theorem remove_of_get_some {m : SlotMap A} {k : DefaultKey} {a : A}
    (h : m.get k = some a) :
    m.remove k = (some a, ⟨m.slots.set k.idx ⟨k.gen, none⟩⟩) := by
  rcases get_eq_some_iff.mp h with ⟨s, hs, hg, hv⟩
  unfold remove
  rw [hs]
  dsimp only
  rw [if_pos hg, hv, hg]

theorem get_remove_self {m : SlotMap A} {k : DefaultKey} :
    (m.remove k).2.get k = none := by
  cases ha : m.get k with
  | none => rw [remove_of_get_none ha]; exact ha
  | some a =>
    rw [remove_of_get_some ha]
    rcases get_eq_some_iff.mp ha with ⟨s, hs, hg, hv⟩
    have hlt : k.idx < m.slots.length := by
      rcases List.getElem?_eq_some.mp hs with ⟨h, -⟩; exact h
    unfold get
    dsimp only
    simp only [List.getElem?_set_self hlt]
    simp

theorem get_remove_other {m : SlotMap A} {k k' : DefaultKey} (hne : k' ≠ k) :
    (m.remove k).2.get k' = m.get k' := by
  cases ha : m.get k with
  | none => rw [remove_of_get_none ha]
  | some a =>
    rw [remove_of_get_some ha]
    rcases get_eq_some_iff.mp ha with ⟨s, hs, hg, hv⟩
    unfold get
    by_cases hidx : k'.idx = k.idx
    · have hgen : k'.gen ≠ k.gen := by
        intro hgg
        exact hne (by cases k'; cases k; simp_all)
      have hlt : k.idx < m.slots.length := by
        rcases List.getElem?_eq_some.mp hs with ⟨h, -⟩; exact h
      dsimp only
      rw [hidx, List.getElem?_set_self hlt, hs]
      have h1 : ¬ s.gen = k'.gen := by rw [hg]; exact fun hh => hgen hh.symm
      simp [h1, Ne.symm hgen]
    · dsimp only
      rw [List.getElem?_set_ne (by omega)]

theorem len_remove {m : SlotMap A} {k : DefaultKey} {a : A}
    (h : m.get k = some a) : (m.remove k).2.len + 1 = m.len := by
  rw [remove_of_get_some h]
  rcases get_eq_some_iff.mp h with ⟨s, hs, hg, hv⟩
  simp only [len_eq_countP]
  have := countP_set_aux (fun s => s.val.isSome) m.slots k.idx ⟨k.gen, none⟩ s hs
  simp [hv] at this
  omega

theorem modify_of_get_some {m : SlotMap A} {k : DefaultKey} {a : A}
    (h : m.get k = some a) (f : A → A) :
    m.modify k f = ⟨m.slots.set k.idx ⟨k.gen, some (f a)⟩⟩ := by
  rcases get_eq_some_iff.mp h with ⟨s, hs, hg, hv⟩
  unfold modify
  rw [hs]
  dsimp only
  rw [if_pos hg, hv, hg]
  rfl

theorem get_modify_self (m : SlotMap A) (k : DefaultKey) (f : A → A) :
    (m.modify k f).get k = (m.get k).map f := by
  cases hs : m.slots[k.idx]? with
  | none => simp [modify, get, hs]
  | some s =>
    have hlt : k.idx < m.slots.length := by
      rcases List.getElem?_eq_some.mp hs with ⟨h, -⟩; exact h
    by_cases hg : s.gen = k.gen
    · simp [modify, get, hs, hg, List.getElem?_set_self hlt]
    · simp [modify, get, hs, hg]

theorem get_modify_other (m : SlotMap A) (k : DefaultKey) (f : A → A)
    {k' : DefaultKey} (hne : k' ≠ k) :
    (m.modify k f).get k' = m.get k' := by
  cases hs : m.slots[k.idx]? with
  | none => simp [modify, hs]
  | some s =>
    by_cases hg : s.gen = k.gen
    · by_cases hidx : k'.idx = k.idx
      · have hgen : k'.gen ≠ k.gen := by
          intro hgg
          exact hne (by cases k'; cases k; simp_all)
        have hlt : k.idx < m.slots.length := by
          rcases List.getElem?_eq_some.mp hs with ⟨h, -⟩; exact h
        have h1 : ¬ s.gen = k'.gen := by rw [hg]; exact fun hh => hgen hh.symm
        have h2 : ¬ k.gen = k'.gen := fun hh => hgen hh.symm
        simp [modify, get, hs, hg, hidx, List.getElem?_set_self hlt, h1, h2]
      · simp only [modify, hs, if_pos hg]
        unfold get
        dsimp only
        rw [List.getElem?_set_ne (by omega)]
    · simp [modify, hs, hg]

theorem len_modify (m : SlotMap A) (k : DefaultKey) (f : A → A) :
    (m.modify k f).len = m.len := by
  cases hs : m.slots[k.idx]? with
  | none => simp [modify, hs]
  | some s =>
    by_cases hg : s.gen = k.gen
    · simp only [modify, hs, if_pos hg]
      simp only [len_eq_countP]
      have h2 := countP_set_aux (fun s => s.val.isSome) m.slots k.idx
        ⟨s.gen, s.val.map f⟩ s hs
      have h3 : (Option.map f s.val).isSome = s.val.isSome := by
        cases s.val <;> rfl
      simp only [h3] at h2
      omega
    · simp [modify, hs, hg]

end SlotMap

/-! ## HandleHashMap lemmas -/

namespace HandleHashMap

variable {K V : Type} [DecidableEq K]

theorem probe_isSome_iff {m : HandleHashMap K V} {h : Nat} {q : K} :
    (m.probe h q).isSome ↔
      ∃ p ∈ m.index, p.1 = h ∧ ∃ e, m.slots.get p.2 = some e ∧ e.key = q := by
  rw [probe, List.find?_isSome]
  constructor
  · rintro ⟨p, hmem, hp⟩
    rw [Bool.and_eq_true, beq_iff_eq] at hp
    rcases hp with ⟨h1, h2⟩
    rw [entryKeyIs] at h2
    cases hget : m.slots.get p.2 with
    | none => rw [hget] at h2; cases h2
    | some e =>
      rw [hget] at h2
      exact ⟨p, hmem, h1, e, hget, of_decide_eq_true h2⟩
  · rintro ⟨p, hmem, h1, e, hget, hkey⟩
    refine ⟨p, hmem, ?_⟩
    rw [Bool.and_eq_true, beq_iff_eq]
    refine ⟨h1, ?_⟩
    rw [entryKeyIs, hget]
    exact decide_eq_true hkey

theorem probe_some_spec {m : HandleHashMap K V} {h : Nat} {q : K}
    {p : Nat × DefaultKey} (hp : m.probe h q = some p) :
    p ∈ m.index ∧ p.1 = h ∧ ∃ e, m.slots.get p.2 = some e ∧ e.key = q := by
  have hmem := List.mem_of_find?_eq_some hp
  have hpred := List.find?_some hp
  rw [Bool.and_eq_true, beq_iff_eq] at hpred
  rcases hpred with ⟨h1, h2⟩
  rw [entryKeyIs] at h2
  cases hget : m.slots.get p.2 with
  | none => rw [hget] at h2; cases h2
  | some e =>
    rw [hget] at h2
    exact ⟨hmem, h1, e, rfl, of_decide_eq_true h2⟩

theorem insertTr_duplicate (hashF : K → Nat) {m : HandleHashMap K V} {k : K}
    (h : containsKey hashF m k = true) (v : V) :
    m.insertTr hashF k v =
      (.error .DuplicateKey, m,
        [.buildEntry k v (hashF k), .dropEntry k v (hashF k)]) := by
  rw [containsKey, Option.isSome_iff_exists] at h
  rcases h with ⟨p, hp⟩
  simp only [insertTr, hp]

theorem insertTr_success (hashF : K → Nat) {m : HandleHashMap K V} {k : K}
    (h : containsKey hashF m k = false) (v : V) :
    m.insertTr hashF k v =
      (.ok (m.slots.insert ⟨k, v, hashF k⟩).1,
        ⟨m.index ++ [(hashF k, (m.slots.insert ⟨k, v, hashF k⟩).1)],
          (m.slots.insert ⟨k, v, hashF k⟩).2⟩,
        [.buildEntry k v (hashF k)]) := by
  rw [containsKey] at h
  have h0 : m.probe (hashF k) k = none := by
    cases hp : m.probe (hashF k) k with
    | none => rfl
    | some p => rw [hp] at h; cases h
  simp only [insertTr, h0]

theorem insertWithCnt_duplicate (hashF : K → Nat) {m : HandleHashMap K V}
    {k : K} (h : containsKey hashF m k = true) (default : σ → V × σ) (st : σ) :
    m.insertWithCnt hashF k default st = (.error .DuplicateKey, m, st) := by
  rw [containsKey, Option.isSome_iff_exists] at h
  rcases h with ⟨p, hp⟩
  simp only [insertWithCnt, hp]

theorem insertWithCnt_success (hashF : K → Nat) {m : HandleHashMap K V}
    {k : K} (h : containsKey hashF m k = false) (default : σ → V × σ) (st : σ) :
    m.insertWithCnt hashF k default st =
      (.ok (m.slots.insert ⟨k, (default st).1, hashF k⟩).1,
        ⟨m.index ++ [(hashF k, (m.slots.insert ⟨k, (default st).1, hashF k⟩).1)],
          (m.slots.insert ⟨k, (default st).1, hashF k⟩).2⟩,
        (default st).2) := by
  rw [containsKey] at h
  have h0 : m.probe (hashF k) k = none := by
    cases hp : m.probe (hashF k) k with
    | none => rfl
    | some p => rw [hp] at h; cases h
  simp only [insertWithCnt, h0]

theorem removeTr_spec {m : HandleHashMap K V} {h : DefaultKey} {e : Entry K V}
    (hget : m.slots.get h = some e) (hmem : (e.hash, h) ∈ m.index) :
    m.removeTr h = .removed e.key e.value
      ⟨eraseFirst (fun p => p.1 == e.hash && p.2 == h) m.index,
        ⟨m.slots.slots.set h.idx ⟨h.gen, none⟩⟩⟩
      [.slotRemove h, .indexUnlink e.hash h] := by
  have hfind : (m.index.find? fun p => p.1 == e.hash && p.2 == h).isSome := by
    rw [List.find?_isSome]
    exact ⟨(e.hash, h), hmem, by simp⟩
  simp only [removeTr, SlotMap.remove_of_get_some hget]
  rw [if_pos hfind]

theorem removeTr_stale {m : HandleHashMap K V} {h : DefaultKey}
    (hget : m.slots.get h = none) : m.removeTr h = .stale := by
  simp only [removeTr, SlotMap.remove_of_get_none hget]

end HandleHashMap

/-! ## CountedHashMap lemmas -/

namespace CountedHashMap

variable {K V : Type} [DecidableEq K]

theorem setCount_index (m : CountedHashMap K V) (h : DefaultKey) (n : Nat) :
    (m.setCount h n).index = m.index := rfl

theorem setCount_get_self {m : CountedHashMap K V} {h : DefaultKey}
    {e : Entry K (Counted V)} (hget : m.slots.get h = some e) (n : Nat) :
    (m.setCount h n).slots.get h = some ⟨e.key, ⟨n, e.value.value⟩, e.hash⟩ := by
  show (m.slots.modify h _).get h = _
  rw [SlotMap.get_modify_self, hget]
  rfl

theorem setCount_get_other (m : CountedHashMap K V) (h : DefaultKey) (n : Nat)
    {h' : DefaultKey} (hne : h' ≠ h) :
    (m.setCount h n).slots.get h' = m.slots.get h' :=
  SlotMap.get_modify_other _ _ _ hne

theorem setCount_len (m : CountedHashMap K V) (h : DefaultKey) (n : Nat) :
    (m.setCount h n).len = m.len :=
  SlotMap.len_modify _ _ _

theorem handleValue_eq {m : CountedHashMap K V} {h : DefaultKey}
    {e : Entry K (Counted V)} (hget : m.slots.get h = some e) :
    m.handleValue h = some e.value := by
  rw [HandleHashMap.handleValue, hget]
  rfl

theorem handleValue_none {m : CountedHashMap K V} {h : DefaultKey}
    (hget : m.slots.get h = none) : m.handleValue h = none := by
  rw [HandleHashMap.handleValue, hget]
  rfl

/-- Embeds `put` on an entry whose count is at least 2: the count is decremented
in place and the entry stays. -/
theorem putC_live {m : CountedHashMap K V} {h : DefaultKey}
    {e : Entry K (Counted V)} (hget : m.slots.get h = some e)
    (h2 : 2 ≤ e.value.refcount) :
    m.putC h = some (.Live, m.setCount h (e.value.refcount - 1)) := by
  have hc0 : ¬ (e.value.refcount = 0) := by omega
  have hz : decide (e.value.refcount - 1 = 0) = false :=
    decide_eq_false (by omega)
  simp only [putC, handleValue_eq hget, UsizeCount.put, if_neg hc0, hz]
  simp

/-- Embeds `put` on an entry whose count is exactly 1: the count hits zero and
the structural removal runs. -/
theorem putC_removed {m : CountedHashMap K V} {h : DefaultKey}
    {e : Entry K (Counted V)} (hget : m.slots.get h = some e)
    (h1 : e.value.refcount = 1) (hmem : (e.hash, h) ∈ m.index) :
    m.putC h = some (.Removed e.key e.value.value,
      ⟨eraseFirst (fun p => p.1 == e.hash && p.2 == h) m.index,
        ⟨m.slots.slots.set h.idx ⟨h.gen, none⟩⟩⟩) := by
  have hc0 : ¬ (e.value.refcount = 0) := by omega
  have hz : decide (e.value.refcount - 1 = 0) = true := by
    apply decide_eq_true; omega
  have hget1 : (m.setCount h (e.value.refcount - 1)).slots.get h =
      some ⟨e.key, ⟨e.value.refcount - 1, e.value.value⟩, e.hash⟩ :=
    setCount_get_self hget _
  have hmem1 : ((⟨e.key, ⟨e.value.refcount - 1, e.value.value⟩, e.hash⟩ :
      Entry K (Counted V)).hash, h) ∈ (m.setCount h (e.value.refcount - 1)).index := by
    rw [setCount_index]
    exact hmem
  have hrem := HandleHashMap.removeTr_spec hget1 hmem1
  have hslots : (m.setCount h (e.value.refcount - 1)).slots.slots.set h.idx
      ⟨h.gen, none⟩ = m.slots.slots.set h.idx ⟨h.gen, none⟩ := by
    show ((m.slots.modify h _).slots).set h.idx ⟨h.gen, none⟩ = _
    rw [SlotMap.modify_of_get_some hget]
    exact List.set_set _ _ _ _
  simp only [putC, handleValue_eq hget, UsizeCount.put, if_neg hc0, hz]
  simp only [hrem, hslots]
  simp only [setCount_index]
  simp

/-- Embeds `get` (clone a counted handle): mints another token, incrementing the
count in place. -/
theorem getC_spec {m : CountedHashMap K V} {h : DefaultKey}
    {e : Entry K (Counted V)} (hget : m.slots.get h = some e)
    (hov : e.value.refcount + 1 < USIZE) :
    m.getC h = some (h, m.setCount h (e.value.refcount + 1)) := by
  have hmod : (e.value.refcount + 1) % USIZE = e.value.refcount + 1 :=
    Nat.mod_eq_of_lt hov
  simp only [getC, handleValue_eq hget, UsizeCount.get, hmod]
  have : ¬ (e.value.refcount + 1 = 0) := by omega
  rw [if_neg this]

/-- Embeds `get` aborts when the count would wrap. -/
theorem getC_abort {m : CountedHashMap K V} {h : DefaultKey}
    {e : Entry K (Counted V)} (hget : m.slots.get h = some e)
    (hov : e.value.refcount + 1 = USIZE) :
    m.getC h = none := by
  have hmod : (e.value.refcount + 1) % USIZE = 0 := by
    rw [hov]; exact Nat.mod_self _
  simp only [getC, handleValue_eq hget, UsizeCount.get, hmod]
  rfl

theorem insertC_duplicate (hashF : K → Nat) {m : CountedHashMap K V} {k : K}
    (h : HandleHashMap.containsKey hashF m k = true) (v : V) :
    m.insertC hashF k v = some (.error .DuplicateKey, m) := by
  have := HandleHashMap.insertTr_duplicate hashF h (⟨0, v⟩ : Counted V)
  simp only [insertC, HandleHashMap.insert, this]

theorem insertC_success (hashF : K → Nat) {m : CountedHashMap K V} {k : K}
    (h : HandleHashMap.containsKey hashF m k = false) (v : V) :
    m.insertC hashF k v = some (.ok (m.slots.insert ⟨k, ⟨0, v⟩, hashF k⟩).1,
      CountedHashMap.setCount
        (⟨m.index ++ [(hashF k, (m.slots.insert ⟨k, ⟨0, v⟩, hashF k⟩).1)],
          (m.slots.insert ⟨k, ⟨0, v⟩, hashF k⟩).2⟩ : CountedHashMap K V)
        (m.slots.insert ⟨k, ⟨0, v⟩, hashF k⟩).1 1) := by
  have hins := HandleHashMap.insertTr_success hashF h (⟨0, v⟩ : Counted V)
  have hget1 : ((⟨m.index ++ [(hashF k, (m.slots.insert ⟨k, ⟨0, v⟩, hashF k⟩).1)],
      (m.slots.insert ⟨k, ⟨0, v⟩, hashF k⟩).2⟩ : CountedHashMap K V)).slots.get
      (m.slots.insert ⟨k, ⟨0, v⟩, hashF k⟩).1 = some ⟨k, ⟨0, v⟩, hashF k⟩ :=
    SlotMap.get_insert_self m.slots _
  simp only [insertC, HandleHashMap.insert, hins]
  simp only [handleValue_eq hget1]
  have h1 : UsizeCount.get 0 = some 1 := by
    simp [UsizeCount.get, USIZE, Nat.mod_eq_of_lt]
  simp only [h1]

end CountedHashMap

namespace CountedHashMap

variable {K V : Type} [DecidableEq K]

/-- Rewriting the refcount of a live entry preserves the structural
invariant. -/
theorem SInv_setCount {hashF : K → Nat} {m : CountedHashMap K V}
    (hs : SInv hashF m) {h : DefaultKey} {e : Entry K (Counted V)}
    (hget : m.slots.get h = some e) (n : Nat) :
    SInv hashF (m.setCount h n) := by
  refine ⟨?_, ?_, ?_⟩
  · intro p hp
    rw [setCount_index] at hp
    rcases hs.sound p hp with ⟨e2, hget2, hh, hk⟩
    by_cases hph : p.2 = h
    · subst hph
      rw [hget] at hget2
      injection hget2 with he
      refine ⟨⟨e.key, ⟨n, e.value.value⟩, e.hash⟩, setCount_get_self hget n,
        ?_, ?_⟩
      · show e.hash = p.1
        rw [he]; exact hh
      · show hashF e.key = p.1
        rw [he]; exact hk
    · exact ⟨e2, by rw [setCount_get_other m h n hph]; exact hget2, hh, hk⟩
  · intro dk e2 hget2
    rw [setCount_index]
    by_cases hdk : dk = h
    · subst hdk
      rw [setCount_get_self hget n] at hget2
      injection hget2 with he
      subst he
      exact hs.complete dk e hget
    · rw [setCount_get_other m h n hdk] at hget2
      exact hs.complete dk e2 hget2
  · rw [setCount_index]
    exact hs.distinct

/-- Minting a token for a live entry (the shared effect of `find`, `get`
and the tail of `insert`) preserves the invariant. -/
theorem Inv_mint {hashF : K → Nat} {s : CState K V} (hinv : Inv hashF s)
    {h : DefaultKey} {e : Entry K (Counted V)}
    (hget : s.map.slots.get h = some e)
    (hov : e.value.refcount + 1 < USIZE) :
    Inv hashF ⟨s.map.setCount h (e.value.refcount + 1), h :: s.outstanding⟩ := by
  rcases hinv.counts h e hget with ⟨hcnt, hpos, hlt⟩
  refine ⟨SInv_setCount hinv.sinv hget _, ?_, ?_⟩
  · intro dk e2 hget2
    dsimp only at hget2 ⊢
    by_cases hdk : dk = h
    · subst hdk
      rw [setCount_get_self hget _] at hget2
      injection hget2 with he
      refine ⟨?_, ?_, ?_⟩ <;> rw [← he] <;> dsimp only
      · rw [List.count_cons_self, ← hcnt]
      · omega
      · exact hov
    · rw [setCount_get_other s.map h _ hdk] at hget2
      rcases hinv.counts dk e2 hget2 with ⟨hc2, hp2, hl2⟩
      exact ⟨by rw [List.count_cons_of_ne hdk, hc2], hp2, hl2⟩
  · intro dk hdk
    dsimp only at hdk ⊢
    by_cases hdkh : dk = h
    · subst hdkh
      rw [setCount_get_self hget _]
      rfl
    · rcases List.mem_cons.mp hdk with heq | hmem
      · exact absurd heq hdkh
      · rw [setCount_get_other s.map h _ hdkh]
        exact hinv.live dk hmem

/-- Returning a token while at least one other token remains (`put`
taking the `Live` branch) preserves the invariant. -/
theorem Inv_put_live {hashF : K → Nat} {s : CState K V} (hinv : Inv hashF s)
    {h : DefaultKey} {e : Entry K (Counted V)}
    (hget : s.map.slots.get h = some e) (h2 : 2 ≤ e.value.refcount) :
    Inv hashF ⟨s.map.setCount h (e.value.refcount - 1),
      s.outstanding.erase h⟩ := by
  rcases hinv.counts h e hget with ⟨hcnt, hpos, hlt⟩
  refine ⟨SInv_setCount hinv.sinv hget _, ?_, ?_⟩
  · intro dk e2 hget2
    dsimp only at hget2 ⊢
    by_cases hdk : dk = h
    · subst hdk
      rw [setCount_get_self hget _] at hget2
      injection hget2 with he
      refine ⟨?_, ?_, ?_⟩ <;> rw [← he] <;> dsimp only
      · rw [List.count_erase_self, ← hcnt]
      · omega
      · omega
    · rw [setCount_get_other s.map h _ hdk] at hget2
      rcases hinv.counts dk e2 hget2 with ⟨hc2, hp2, hl2⟩
      exact ⟨by rw [List.count_erase_of_ne hdk, hc2], hp2, hl2⟩
  · intro dk hdk
    dsimp only at hdk ⊢
    have hmem : dk ∈ s.outstanding := List.mem_of_mem_erase hdk
    by_cases hdkh : dk = h
    · subst hdkh
      rw [setCount_get_self hget _]
      rfl
    · rw [setCount_get_other s.map h _ hdkh]
      exact hinv.live dk hmem

/-- Returning the last token (`put` taking the `Removed` branch, which
removes the entry from the structural map) preserves the invariant. -/
theorem Inv_put_removed {hashF : K → Nat} {s : CState K V} (hinv : Inv hashF s)
    {h : DefaultKey} {e : Entry K (Counted V)}
    (hget : s.map.slots.get h = some e) (h1 : e.value.refcount = 1) :
    Inv hashF ⟨⟨eraseFirst (fun p => p.1 == e.hash && p.2 == h) s.map.index,
      ⟨s.map.slots.slots.set h.idx ⟨h.gen, none⟩⟩⟩,
      s.outstanding.erase h⟩ := by
  rcases hinv.counts h e hget with ⟨hcnt, hpos, hlt⟩
  have hrw : (⟨s.map.slots.slots.set h.idx ⟨h.gen, none⟩⟩ : SlotMap (Entry K (Counted V)))
      = (s.map.slots.remove h).2 := by
    rw [SlotMap.remove_of_get_some hget]
  have hget_self : (⟨s.map.slots.slots.set h.idx ⟨h.gen, none⟩⟩ :
      SlotMap (Entry K (Counted V))).get h = none := by
    rw [hrw]; exact SlotMap.get_remove_self
  have hget_other : ∀ dk : DefaultKey, dk ≠ h →
      (⟨s.map.slots.slots.set h.idx ⟨h.gen, none⟩⟩ :
        SlotMap (Entry K (Counted V))).get dk = s.map.slots.get dk := by
    intro dk hdk
    rw [hrw]; exact SlotMap.get_remove_other hdk
  have hpred_iff : ∀ p : Nat × DefaultKey,
      ((fun p : Nat × DefaultKey => p.1 == e.hash && p.2 == h) p = true) ↔
        (p.1 = e.hash ∧ p.2 = h) := by
    intro p
    rw [Bool.and_eq_true, beq_iff_eq, beq_iff_eq]
  refine ⟨⟨?_, ?_, ?_⟩, ?_, ?_⟩
  · -- sound
    intro p hp
    dsimp only at hp ⊢
    have hpmem : p ∈ s.map.index := (eraseFirst_sublist _ _).subset hp
    have hpne : p.2 ≠ h := by
      intro hph
      rcases hinv.sinv.sound p hpmem with ⟨e2, hget2, hh, -⟩
      rw [hph, hget] at hget2
      injection hget2 with he
      subst he
      have hpt : (fun p : Nat × DefaultKey => p.1 == e.hash && p.2 == h) p = true := by
        rw [hpred_iff]
        exact ⟨hh.symm, hph⟩
      rcases eraseFirst_mem_pairwise _ hinv.sinv.distinct hp hpt with
        ⟨y, hy, hyt, hyne⟩
      rw [hpred_iff] at hyt
      exact hyne (hyt.2.trans hph.symm)
    rcases hinv.sinv.sound p hpmem with ⟨e2, hget2, hh, hk⟩
    exact ⟨e2, by rw [hget_other p.2 hpne]; exact hget2, hh, hk⟩
  · -- complete
    intro dk e2 hget2
    dsimp only at hget2 ⊢
    by_cases hdk : dk = h
    · subst hdk
      rw [hget_self] at hget2
      cases hget2
    · rw [hget_other dk hdk] at hget2
      have hmem := hinv.sinv.complete dk e2 hget2
      apply mem_eraseFirst_of_not _ _ hmem
      have : ¬ ((e2.hash, dk).1 = e.hash ∧ (e2.hash, dk).2 = h) := by
        intro hc
        exact hdk hc.2
      cases hb : (fun p : Nat × DefaultKey => p.1 == e.hash && p.2 == h) (e2.hash, dk) with
      | false => exact hb
      | true => exact absurd ((hpred_iff _).mp hb) this
  · -- distinct
    exact List.Pairwise.sublist (eraseFirst_sublist _ _) hinv.sinv.distinct
  · -- counts
    intro dk e2 hget2
    dsimp only at hget2 ⊢
    by_cases hdk : dk = h
    · subst hdk
      rw [hget_self] at hget2
      cases hget2
    · rw [hget_other dk hdk] at hget2
      rcases hinv.counts dk e2 hget2 with ⟨hc2, hp2, hl2⟩
      exact ⟨by rw [List.count_erase_of_ne hdk, hc2], hp2, hl2⟩
  · -- live
    intro dk hdk
    dsimp only at hdk ⊢
    have hmem : dk ∈ s.outstanding := List.mem_of_mem_erase hdk
    have hdkh : dk ≠ h := by
      intro heq
      subst heq
      have : 0 < s.outstanding.count dk := by
        rw [← hcnt]; omega
      have hc1 : s.outstanding.count dk = 1 := by rw [← hcnt, h1]
      have : (s.outstanding.erase dk).count dk = 0 := by
        rw [List.count_erase_self, hc1]
      rw [← List.count_pos_iff] at hdk
      omega
    rw [hget_other dk hdkh]
    exact hinv.live dk hmem

theorem findC_none (hashF : K → Nat) {m : CountedHashMap K V} {q : K}
    (hf : HandleHashMap.find hashF m q = none) :
    m.findC hashF q = some (none, m) := by
  simp only [findC, hf]

theorem find_some_get {hashF : K → Nat} {m : CountedHashMap K V} {q : K}
    {h : DefaultKey} (hf : HandleHashMap.find hashF m q = some h) :
    ∃ e, m.slots.get h = some e ∧ e.key = q := by
  rw [HandleHashMap.find] at hf
  cases hp : m.probe (hashF q) q with
  | none => rw [hp] at hf; cases hf
  | some p =>
    rw [hp] at hf
    injection hf with hf2
    rcases HandleHashMap.probe_some_spec hp with ⟨-, -, e, hget, hkey⟩
    exact ⟨e, by rw [← hf2]; exact hget, hkey⟩

theorem findC_some (hashF : K → Nat) {m : CountedHashMap K V} {q : K}
    {h : DefaultKey} {e : Entry K (Counted V)}
    (hf : HandleHashMap.find hashF m q = some h)
    (hget : m.slots.get h = some e) (hov : e.value.refcount + 1 < USIZE) :
    m.findC hashF q = some (some h, m.setCount h (e.value.refcount + 1)) := by
  have hmod : (e.value.refcount + 1) % USIZE = e.value.refcount + 1 :=
    Nat.mod_eq_of_lt hov
  simp only [findC, hf, handleValue_eq hget, UsizeCount.get, hmod]
  have : ¬ (e.value.refcount + 1 = 0) := by omega
  rw [if_neg this]

theorem findC_abort (hashF : K → Nat) {m : CountedHashMap K V} {q : K}
    {h : DefaultKey} {e : Entry K (Counted V)}
    (hf : HandleHashMap.find hashF m q = some h)
    (hget : m.slots.get h = some e) (hov : e.value.refcount + 1 = USIZE) :
    m.findC hashF q = none := by
  have hmod : (e.value.refcount + 1) % USIZE = 0 := by
    rw [hov]; exact Nat.mod_self _
  simp only [findC, hf, handleValue_eq hget, UsizeCount.get, hmod]
  rfl

/-- A successful `insert` (key absent) preserves the invariant: the new
entry enters with count 1, matched by the single freshly minted token. -/
theorem Inv_insert_success {hashF : K → Nat} {s : CState K V}
    (hinv : Inv hashF s) {k : K}
    (hc : HandleHashMap.containsKey hashF s.map k = false) (v : V) :
    Inv hashF ⟨CountedHashMap.setCount
      (⟨s.map.index ++ [(hashF k, (s.map.slots.insert ⟨k, ⟨0, v⟩, hashF k⟩).1)],
        (s.map.slots.insert ⟨k, ⟨0, v⟩, hashF k⟩).2⟩ : CountedHashMap K V)
      (s.map.slots.insert ⟨k, ⟨0, v⟩, hashF k⟩).1 1,
      (s.map.slots.insert ⟨k, ⟨0, v⟩, hashF k⟩).1 :: s.outstanding⟩ := by
  set a : Entry K (Counted V) := ⟨k, ⟨0, v⟩, hashF k⟩ with ha
  set dk : DefaultKey := (s.map.slots.insert a).1 with hdk
  set m1 : CountedHashMap K V :=
    ⟨s.map.index ++ [(hashF k, dk)], (s.map.slots.insert a).2⟩ with hm1
  have hfresh : s.map.slots.get dk = none := SlotMap.insert_fresh s.map.slots a
  have hget1 : m1.slots.get dk = some a := SlotMap.get_insert_self s.map.slots a
  have hother1 : ∀ dk' : DefaultKey, dk' ≠ dk →
      m1.slots.get dk' = s.map.slots.get dk' := by
    intro dk' hne
    exact SlotMap.get_insert_other s.map.slots a hne
  have hget2 : (m1.setCount dk 1).slots.get dk = some ⟨k, ⟨1, v⟩, hashF k⟩ :=
    setCount_get_self hget1 1
  have hother2 : ∀ dk' : DefaultKey, dk' ≠ dk →
      (m1.setCount dk 1).slots.get dk' = s.map.slots.get dk' := by
    intro dk' hne
    rw [setCount_get_other m1 dk 1 hne]
    exact hother1 dk' hne
  have hidx2 : (m1.setCount dk 1).index = s.map.index ++ [(hashF k, dk)] := rfl
  have hnotout : dk ∉ s.outstanding := by
    intro hmem
    have := hinv.live dk hmem
    rw [hfresh] at this
    cases this
  refine ⟨⟨?_, ?_, ?_⟩, ?_, ?_⟩
  · -- sound
    intro p hp
    rw [hidx2] at hp
    rcases List.mem_append.mp hp with hmem | hmem
    · rcases hinv.sinv.sound p hmem with ⟨e2, hget3, hh, hk2⟩
      have hne : p.2 ≠ dk := by
        intro heq
        rw [heq, hfresh] at hget3
        cases hget3
      exact ⟨e2, by rw [hother2 p.2 hne]; exact hget3, hh, hk2⟩
    · rcases List.mem_singleton.mp hmem with rfl
      exact ⟨⟨k, ⟨1, v⟩, hashF k⟩, hget2, rfl, rfl⟩
  · -- complete
    intro dk' e2 hget3
    rw [hidx2]
    by_cases hne : dk' = dk
    · subst hne
      rw [hget2] at hget3
      injection hget3 with he
      rw [← he]
      exact List.mem_append.mpr (Or.inr (List.mem_singleton.mpr rfl))
    · rw [hother2 dk' hne] at hget3
      exact List.mem_append.mpr (Or.inl (hinv.sinv.complete dk' e2 hget3))
  · -- distinct
    rw [hidx2]
    rw [List.pairwise_append]
    refine ⟨hinv.sinv.distinct, List.pairwise_singleton _ _, ?_⟩
    intro p hp q hq
    rcases List.mem_singleton.mp hq with rfl
    rcases hinv.sinv.sound p hp with ⟨e2, hget3, -, -⟩
    intro heq
    rw [heq, hfresh] at hget3
    cases hget3
  · -- counts
    intro dk' e2 hget3
    dsimp only at hget3 ⊢
    by_cases hne : dk' = dk
    · subst hne
      rw [hget2] at hget3
      injection hget3 with he
      refine ⟨?_, ?_, ?_⟩
      · rw [← he]
        dsimp only
        rw [List.count_cons_self, List.count_eq_zero.mpr hnotout]
      · rw [← he]
      · rw [← he]
        show 1 < USIZE
        norm_num [USIZE]
    · rw [hother2 dk' hne] at hget3
      rcases hinv.counts dk' e2 hget3 with ⟨hc2, hp2, hl2⟩
      exact ⟨by rw [List.count_cons_of_ne hne, hc2], hp2, hl2⟩
  · -- live
    intro dk' hmem
    dsimp only at hmem ⊢
    by_cases hne : dk' = dk
    · subst hne
      rw [hget2]
      rfl
    · rcases List.mem_cons.mp hmem with heq | hmem2
      · exact absurd heq hne
      · rw [hother2 dk' hne]
        exact hinv.live dk' hmem2

/-- Every operation of the counted-map state machine preserves the
invariant. -/
theorem stepOp_inv (hashF : K → Nat) {s s2 : CState K V} (hinv : Inv hashF s)
    {op : COp K V} (hstep : stepOp hashF s op = some s2) : Inv hashF s2 := by
  cases op with
  | insert k v =>
    cases hc : HandleHashMap.containsKey hashF s.map k with
    | true =>
      rw [stepOp, insertC_duplicate hashF hc v] at hstep
      simp only [Option.map_some'] at hstep
      injection hstep with h2
      rw [← h2]
      exact hinv
    | false =>
      rw [stepOp, insertC_success hashF hc v] at hstep
      simp only [Option.map_some'] at hstep
      injection hstep with h2
      rw [← h2]
      exact Inv_insert_success hinv hc v
  | find k =>
    cases hf : HandleHashMap.find hashF s.map k with
    | none =>
      rw [stepOp, findC_none hashF hf] at hstep
      simp only [Option.map_some'] at hstep
      injection hstep with h2
      rw [← h2]
      exact hinv
    | some h =>
      rcases find_some_get hf with ⟨e, hget, -⟩
      rcases hinv.counts h e hget with ⟨-, -, hlt⟩
      rcases Nat.lt_or_ge (e.value.refcount + 1) USIZE with hov | hov
      · rw [stepOp, findC_some hashF hf hget hov] at hstep
        simp only [Option.map_some'] at hstep
        injection hstep with h2
        rw [← h2]
        exact Inv_mint hinv hget hov
      · have hov2 : e.value.refcount + 1 = USIZE := by omega
        rw [stepOp, findC_abort hashF hf hget hov2] at hstep
        cases hstep
  | get i =>
    rw [stepOp] at hstep
    cases ho : s.outstanding[i]? with
    | none =>
      rw [ho] at hstep
      dsimp only at hstep
      injection hstep with h2
      rw [← h2]
      exact hinv
    | some h =>
      rw [ho] at hstep
      dsimp only at hstep
      have hmem : h ∈ s.outstanding := List.getElem?_mem ho
      have hsome := hinv.live h hmem
      rw [Option.isSome_iff_exists] at hsome
      rcases hsome with ⟨e, hget⟩
      rcases hinv.counts h e hget with ⟨-, -, hlt⟩
      rcases Nat.lt_or_ge (e.value.refcount + 1) USIZE with hov | hov
      · rw [getC_spec hget hov] at hstep
        simp only [Option.map_some'] at hstep
        injection hstep with h2
        rw [← h2]
        exact Inv_mint hinv hget hov
      · have hov2 : e.value.refcount + 1 = USIZE := by omega
        rw [getC_abort hget hov2] at hstep
        cases hstep
  | put i =>
    rw [stepOp] at hstep
    cases ho : s.outstanding[i]? with
    | none =>
      rw [ho] at hstep
      dsimp only at hstep
      injection hstep with h2
      rw [← h2]
      exact hinv
    | some h =>
      rw [ho] at hstep
      dsimp only at hstep
      have hmem : h ∈ s.outstanding := List.getElem?_mem ho
      have hsome := hinv.live h hmem
      rw [Option.isSome_iff_exists] at hsome
      rcases hsome with ⟨e, hget⟩
      rcases hinv.counts h e hget with ⟨-, hpos, -⟩
      rcases Nat.lt_or_ge e.value.refcount 2 with hlow | hhigh
      · have h1 : e.value.refcount = 1 := by omega
        rw [putC_removed hget h1 (hinv.sinv.complete h e hget)] at hstep
        simp only [Option.map_some'] at hstep
        injection hstep with h2
        rw [← h2]
        exact Inv_put_removed hinv hget h1
      · rw [putC_live hget hhigh] at hstep
        simp only [Option.map_some'] at hstep
        injection hstep with h2
        rw [← h2]
        exact Inv_put_live hinv hget hhigh

/-- Running any operation sequence preserves the invariant. -/
theorem runOps_inv (hashF : K → Nat) {s s2 : CState K V} (hinv : Inv hashF s) :
    ∀ {ops : List (COp K V)}, runOps hashF s ops = some s2 → Inv hashF s2 := by
  intro ops
  induction ops generalizing s with
  | nil =>
    intro h
    rw [runOps] at h
    injection h with h2
    rw [← h2]
    exact hinv
  | cons op rest ih =>
    intro h
    rw [runOps] at h
    cases hstep : stepOp hashF s op with
    | none => rw [hstep] at h; cases h
    | some smid =>
      rw [hstep] at h
      exact ih (stepOp_inv hashF hinv hstep) h

/-- The empty state satisfies the invariant. -/
theorem Inv_init (hashF : K → Nat) : Inv hashF (CState.init K V) := by
  have hget : ∀ dk : DefaultKey,
      (CState.init K V).map.slots.get dk = none := by
    intro dk
    rw [CState.init, SlotMap.get]
    simp
  refine ⟨⟨?_, ?_, ?_⟩, ?_, ?_⟩
  · intro p hp
    cases hp
  · intro dk e hg
    rw [hget dk] at hg
    cases hg
  · exact List.Pairwise.nil
  · intro dk e hg
    rw [hget dk] at hg
    cases hg
  · intro dk hmem
    cases hmem

/-- From the invariant: `contains_key k` holds exactly when at least one
outstanding token refers to an entry with key `k`. -/
theorem contains_iff_outstanding {hashF : K → Nat} {s : CState K V}
    (hinv : Inv hashF s) (k : K) :
    HandleHashMap.containsKey hashF s.map k = true ↔
      ∃ dk ∈ s.outstanding, s.map.handleKey dk = some k := by
  constructor
  · intro hc
    rw [HandleHashMap.containsKey, HandleHashMap.probe_isSome_iff] at hc
    rcases hc with ⟨p, hmem, -, e, hget, hkey⟩
    rcases hinv.counts p.2 e hget with ⟨hcnt, hpos, -⟩
    have hout : p.2 ∈ s.outstanding := by
      rw [← List.count_pos_iff]
      omega
    refine ⟨p.2, hout, ?_⟩
    rw [HandleHashMap.handleKey, hget]
    simp [hkey]
  · rintro ⟨dk, hout, hkey⟩
    rw [HandleHashMap.handleKey] at hkey
    cases hget : s.map.slots.get dk with
    | none => rw [hget] at hkey; cases hkey
    | some e =>
      rw [hget] at hkey
      injection hkey with hkey2
      have hmem := hinv.sinv.complete dk e hget
      rcases hinv.sinv.sound (e.hash, dk) hmem with ⟨e2, hget2, hh, hk2⟩
      rw [hget] at hget2
      injection hget2 with he2
      rw [HandleHashMap.containsKey, HandleHashMap.probe_isSome_iff]
      refine ⟨(e.hash, dk), hmem, ?_, e, hget, hkey2⟩
      show e.hash = hashF k
      have hbeta : e.key = k := hkey2
      rw [← he2] at hk2
      rw [← hbeta]
      exact hk2.symm

/-- Two refcount writes to the same live entry collapse to the last
one. -/
theorem setCount_setCount {m : CountedHashMap K V} {h : DefaultKey}
    {e : Entry K (Counted V)} (hget : m.slots.get h = some e) (a b : Nat) :
    (m.setCount h a).setCount h b = m.setCount h b := by
  have h1 : (m.setCount h a).slots.get h =
      some ⟨e.key, ⟨a, e.value.value⟩, e.hash⟩ := setCount_get_self hget a
  show (⟨m.index, (m.setCount h a).slots.modify h
      (fun e2 => ⟨e2.key, ⟨b, e2.value.value⟩, e2.hash⟩)⟩ : CountedHashMap K V) =
    ⟨m.index, m.slots.modify h (fun e2 => ⟨e2.key, ⟨b, e2.value.value⟩, e2.hash⟩)⟩
  rw [SlotMap.modify_of_get_some h1, SlotMap.modify_of_get_some hget]
  have h2 : (m.setCount h a).slots.slots =
      m.slots.slots.set h.idx ⟨h.gen, some ⟨e.key, ⟨a, e.value.value⟩, e.hash⟩⟩ := by
    show (m.slots.modify h _).slots = _
    rw [SlotMap.modify_of_get_some hget]
  rw [h2, List.set_set]

/-- Writing back an entry's current refcount is the identity. -/
theorem setCount_self {m : CountedHashMap K V} {h : DefaultKey}
    {e : Entry K (Counted V)} (hget : m.slots.get h = some e) :
    m.setCount h e.value.refcount = m := by
  rcases SlotMap.get_eq_some_iff.mp hget with ⟨sl, hs, hg, hv⟩
  have hsl : sl = ⟨h.gen, some e⟩ := by
    cases sl
    dsimp only at hg hv
    rw [hg, hv]
  have hs2 : m.slots.slots[h.idx]? = some ⟨h.gen, some e⟩ := by
    rw [hs, hsl]
  show (⟨m.index, m.slots.modify h
      (fun e2 => ⟨e2.key, ⟨e.value.refcount, e2.value.value⟩, e2.hash⟩)⟩ :
      CountedHashMap K V) = m
  rw [SlotMap.modify_of_get_some hget]
  have h3 : m.slots.slots.set h.idx
      ⟨h.gen, some ⟨e.key, ⟨e.value.refcount, e.value.value⟩, e.hash⟩⟩ =
      m.slots.slots := by
    rw [show (⟨e.key, ⟨e.value.refcount, e.value.value⟩, e.hash⟩ :
      Entry K (Counted V)) = e from rfl]
    exact set_self_eq _ _ _ hs2
  rw [h3]

/-- Embeds `CountedHashMap::insert_with` on a duplicate key: the wrapped
thunk never runs, no token is minted, the map and the instrumentation
state are unchanged. -/
theorem insertWithC_duplicate (hashF : K → Nat) {m : CountedHashMap K V}
    {k : K} (hc : HandleHashMap.containsKey hashF m k = true)
    (default : σ → V × σ) (st : σ) :
    m.insertWithC hashF k default st = some (.error .DuplicateKey, m, st) := by
  simp only [insertWithC]
  rw [HandleHashMap.insertWithCnt_duplicate hashF hc _ st]

/-- Embeds `CountedHashMap::insert_with` on a fresh key: the thunk runs
once (its state transformer fires once), the entry enters with count 0
and a token is immediately minted. -/
theorem insertWithC_success (hashF : K → Nat) {m : CountedHashMap K V}
    {k : K} (hc : HandleHashMap.containsKey hashF m k = false)
    (default : σ → V × σ) (st : σ) :
    m.insertWithC hashF k default st =
      some (.ok (m.slots.insert ⟨k, ⟨0, (default st).1⟩, hashF k⟩).1,
        CountedHashMap.setCount
          (⟨m.index ++
              [(hashF k, (m.slots.insert ⟨k, ⟨0, (default st).1⟩, hashF k⟩).1)],
            (m.slots.insert ⟨k, ⟨0, (default st).1⟩, hashF k⟩).2⟩ :
            CountedHashMap K V)
          (m.slots.insert ⟨k, ⟨0, (default st).1⟩, hashF k⟩).1 1,
        (default st).2) := by
  simp only [insertWithC]
  rw [HandleHashMap.insertWithCnt_success hashF hc _ st]
  dsimp only
  have hget1 : ((⟨m.index ++
      [(hashF k, (m.slots.insert ⟨k, ⟨0, (default st).1⟩, hashF k⟩).1)],
      (m.slots.insert ⟨k, ⟨0, (default st).1⟩, hashF k⟩).2⟩ :
      CountedHashMap K V)).slots.get
      (m.slots.insert ⟨k, ⟨0, (default st).1⟩, hashF k⟩).1 =
      some ⟨k, ⟨0, (default st).1⟩, hashF k⟩ :=
    SlotMap.get_insert_self m.slots _
  rw [handleValue_eq hget1]
  have h1 : UsizeCount.get 0 = some 1 := by
    simp [UsizeCount.get, USIZE, Nat.mod_eq_of_lt]
  dsimp only
  rw [h1]

end CountedHashMap

/-! ## The claims -/

/-- C3: for every sequence of operations (insert, find, get/clone,
put/drop) run from the empty counted map, and every key `k`,
`contains_key k` returns true iff at least one counted token for `k` is
outstanding, i.e. has been minted (pushed onto the ghost outstanding
list) and not yet returned. -/
theorem claim_C3_liveness {K V : Type} [DecidableEq K] (hashF : K → Nat)
    (ops : List (COp K V)) (k : K) (s : CState K V)
    (hrun : runOps hashF (CState.init K V) ops = some s) :
    HandleHashMap.containsKey hashF s.map k = true ↔
      ∃ dk ∈ s.outstanding, s.map.handleKey dk = some k :=
  CountedHashMap.contains_iff_outstanding
    (CountedHashMap.runOps_inv hashF (CountedHashMap.Inv_init hashF) hrun) k

/-- Witness for C3 at a concrete two-operation run. -/
theorem claim_C3_liveness_witness :
    HandleHashMap.containsKey hfConst sWitRun.map 1 = true ↔
      ∃ dk ∈ sWitRun.outstanding, sWitRun.map.handleKey dk = some 1 :=
  claim_C3_liveness hfConst opsWit 1 sWitRun rfl

/-- C4: for a counted handle referring to a live entry (so its token is
among the outstanding ones and the entry's count is positive), `put`
consumes the token and releases it to the counter: if the count did not
reach zero the result is `Live`, the entry remains with its count
decremented and all other entries untouched; otherwise the entry is
removed from the structural map and the owned key and value are returned
to the caller. -/
theorem claim_C4_put {K V : Type} [DecidableEq K] (m : CountedHashMap K V)
    (h : DefaultKey) (e : Entry K (Counted V))
    (hget : m.slots.get h = some e) (hpos : 1 ≤ e.value.refcount)
    (hmem : (e.hash, h) ∈ m.index) :
    (2 ≤ e.value.refcount →
      m.putC h = some (.Live, m.setCount h (e.value.refcount - 1)) ∧
      (m.setCount h (e.value.refcount - 1)).slots.get h =
        some ⟨e.key, ⟨e.value.refcount - 1, e.value.value⟩, e.hash⟩ ∧
      (∀ h2, h2 ≠ h →
        (m.setCount h (e.value.refcount - 1)).slots.get h2 = m.slots.get h2)) ∧
    (e.value.refcount = 1 →
      ∃ m2, m.putC h = some (.Removed e.key e.value.value, m2) ∧
        m2.slots.get h = none ∧
        (∀ h2, h2 ≠ h → m2.slots.get h2 = m.slots.get h2) ∧
        m2.len + 1 = m.len) := by
  constructor
  · intro h2c
    refine ⟨CountedHashMap.putC_live hget h2c,
      CountedHashMap.setCount_get_self hget _, ?_⟩
    intro h2 hne
    exact CountedHashMap.setCount_get_other m h _ hne
  · intro h1c
    refine ⟨⟨eraseFirst (fun p => p.1 == e.hash && p.2 == h) m.index,
      ⟨m.slots.slots.set h.idx ⟨h.gen, none⟩⟩⟩,
      CountedHashMap.putC_removed hget h1c hmem, ?_, ?_, ?_⟩
    · have h3 := @SlotMap.get_remove_self (Entry K (Counted V)) m.slots h
      rw [SlotMap.remove_of_get_some hget] at h3
      exact h3
    · intro h2 hne
      have h3 := @SlotMap.get_remove_other (Entry K (Counted V)) m.slots h h2 hne
      rw [SlotMap.remove_of_get_some hget] at h3
      exact h3
    · have h3 := SlotMap.len_remove hget
      rw [SlotMap.remove_of_get_some hget] at h3
      exact h3

/-- Witness for C4: the `Live` branch at count 2, the `Removed` branch at
count 1. -/
theorem claim_C4_put_witness :
    CountedHashMap.putC mWitB ⟨0, 0⟩ =
      some (.Live, CountedHashMap.setCount mWitB ⟨0, 0⟩ 1) ∧
    (∃ m2, CountedHashMap.putC mWitC ⟨0, 0⟩ = some (.Removed 1 10, m2) ∧
      m2.slots.get ⟨0, 0⟩ = none) := by
  constructor
  · exact ((claim_C4_put mWitB ⟨0, 0⟩ ⟨1, ⟨2, 10⟩, 0⟩ rfl (by decide)
      (by decide)).1 (by decide)).1
  · rcases (claim_C4_put mWitC ⟨0, 0⟩ ⟨1, ⟨1, 10⟩, 0⟩ rfl (by decide)
      (by decide)).2 rfl with ⟨m2, hput, hnone, -, -⟩
    exact ⟨m2, hput, hnone⟩

/-- C5: inserting an already-present key fails with `DuplicateKey` and
has no side effect: the returned map is the old one, so the length, the
stored value for `k`, and every other entry are unchanged. -/
theorem claim_C5_duplicate_no_side_effect {K V : Type} [DecidableEq K]
    (hashF : K → Nat) (m : HandleHashMap K V) (k : K) (v : V)
    (hc : HandleHashMap.containsKey hashF m k = true) :
    m.insert hashF k v = (.error .DuplicateKey, m) ∧
    (m.insert hashF k v).2.len = m.len ∧
    (∀ q, HandleHashMap.containsKey hashF (m.insert hashF k v).2 q =
      HandleHashMap.containsKey hashF m q) ∧
    (∀ h2, (m.insert hashF k v).2.handleValue h2 = m.handleValue h2) ∧
    (∀ h2, (m.insert hashF k v).2.handleKey h2 = m.handleKey h2) := by
  have h0 : m.insert hashF k v = (.error .DuplicateKey, m) := by
    rw [HandleHashMap.insert, HandleHashMap.insertTr_duplicate hashF hc v]
  refine ⟨h0, by rw [h0], ?_, ?_, ?_⟩
  · intro q; rw [h0]
  · intro h2; rw [h0]
  · intro h2; rw [h0]

/-- Witness for C5 at a concrete map containing the key. -/
theorem claim_C5_witness :
    HandleHashMap.insert hfConst mWitA 5 99 = (.error .DuplicateKey, mWitA) :=
  (claim_C5_duplicate_no_side_effect hfConst mWitA 5 99 (by decide)).1

/-- C6: `insert_with(k, thunk)` invokes the thunk exactly once when the
insert succeeds (the instrumentation counter advances from `n` to
`n + 1`), and not at all when it fails with `DuplicateKey` (counter and
map unchanged) — at the structural layer and at the counted layer. -/
theorem claim_C6_insert_with_lazy {K V : Type} [DecidableEq K]
    (hashF : K → Nat) (m : HandleHashMap K V) (mc : CountedHashMap K V)
    (k : K) (v : V) (n : Nat) :
    (HandleHashMap.containsKey hashF m k = true →
      m.insertWithCnt hashF k (fun c => (v, c + 1)) n =
        (.error .DuplicateKey, m, n)) ∧
    (HandleHashMap.containsKey hashF m k = false →
      m.insertWithCnt hashF k (fun c => (v, c + 1)) n =
        (.ok (m.slots.insert ⟨k, v, hashF k⟩).1,
          ⟨m.index ++ [(hashF k, (m.slots.insert ⟨k, v, hashF k⟩).1)],
            (m.slots.insert ⟨k, v, hashF k⟩).2⟩, n + 1)) ∧
    (HandleHashMap.containsKey hashF mc k = true →
      mc.insertWithC hashF k (fun c => (v, c + 1)) n =
        some (.error .DuplicateKey, mc, n)) ∧
    (HandleHashMap.containsKey hashF mc k = false →
      ∃ dk m2, mc.insertWithC hashF k (fun c => (v, c + 1)) n =
        some (.ok dk, m2, n + 1)) := by
  refine ⟨?_, ?_, ?_, ?_⟩
  · intro hc
    exact HandleHashMap.insertWithCnt_duplicate hashF hc _ n
  · intro hc
    exact HandleHashMap.insertWithCnt_success hashF hc _ n
  · intro hc
    exact CountedHashMap.insertWithC_duplicate hashF hc _ n
  · intro hc
    exact ⟨_, _, CountedHashMap.insertWithC_success hashF hc _ n⟩

/-- Witness for C6: a duplicate leaves the counter at 0; a success
advances it to 1. -/
theorem claim_C6_witness :
    HandleHashMap.insertWithCnt hfConst mWitA 5 (fun c => ((99 : Nat), c + 1)) 0 =
      (.error .DuplicateKey, mWitA, 0) ∧
    (∃ dk m2,
      CountedHashMap.insertWithC hfConst mWitB 7 (fun c => ((99 : Nat), c + 1)) 0 =
        some (.ok dk, m2, 1)) := by
  constructor
  · exact (claim_C6_insert_with_lazy hfConst mWitA mWitB 5 99 0).1 (by decide)
  · exact (claim_C6_insert_with_lazy hfConst mWitA mWitB 7 99 0).2.2.2 (by decide)

/-- C7: cloning a live `Ref` and dropping the clone is a no-op: the
resulting state is exactly the original one, hence `contains_key`, the
length and every stored value are unchanged. -/
theorem claim_C7_clone_drop {K V : Type} [DecidableEq K] (s : RcState K V)
    (r : Ref) (e : Entry K (Counted (RcVal V)))
    (hget : s.map.slots.get r.handle = some e) (hpos : 1 ≤ e.value.refcount)
    (hov : e.value.refcount + 1 < USIZE) :
    Ref.cloneThenDrop s r = some s ∧
    (Ref.cloneThenDrop s r).map (fun s2 => s2.lenR) = some s.lenR ∧
    (∀ hashF : K → Nat, ∀ q : K,
      (Ref.cloneThenDrop s r).map
        (fun s2 => RcState.containsKeyR hashF s2 q) =
        some (RcState.containsKeyR hashF s q)) ∧
    (∀ h2 : DefaultKey,
      (Ref.cloneThenDrop s r).map (fun s2 => s2.map.handleValue h2) =
        some (s.map.handleValue h2)) := by
  have hmain : Ref.cloneThenDrop s r = some s := by
    rw [Ref.cloneThenDrop, Ref.cloneR, CountedHashMap.getC_spec hget hov,
      Option.map_some']
    dsimp only
    unfold Ref.dropTr
    rw [Option.some_bind]
    dsimp only
    have hget2 : (s.map.setCount r.handle (e.value.refcount + 1)).slots.get
        r.handle = some ⟨e.key, ⟨e.value.refcount + 1, e.value.value⟩, e.hash⟩ :=
      CountedHashMap.setCount_get_self hget _
    rw [CountedHashMap.putC_live hget2 (by dsimp only; omega)]
    dsimp only
    rw [CountedHashMap.setCount_setCount hget]
    rw [show (⟨e.key, ⟨e.value.refcount + 1, e.value.value⟩, e.hash⟩ :
      Entry K (Counted (RcVal V))).value.refcount - 1 = e.value.refcount from rfl]
    rw [CountedHashMap.setCount_self hget]
    rfl
  refine ⟨hmain, ?_, ?_, ?_⟩
  · rw [hmain]; rfl
  · intro hashF q; rw [hmain]; rfl
  · intro h2; rw [hmain]; rfl

/-- Witness for C7 at a concrete one-entry container. -/
theorem claim_C7_clone_drop_witness :
    Ref.cloneThenDrop sWitRc rWit = some sWitRc :=
  (claim_C7_clone_drop sWitRc rWit ⟨5, ⟨1, ⟨42⟩⟩, 0⟩ rfl (by decide)
    (by decide)).1

/-- C1, counterexample: dropping the last `Ref` runs `drop(key)` BEFORE
`drop(user_value)`, so the actual trace `[entryRemoved, dropKey,
dropValue, keepaliveRelease]` differs from the claimed order
`[entryRemoved, dropValue, dropKey, keepaliveRelease]`
(`specDropOrder`). -/
theorem claim_C1_counterexample :
    (Ref.dropTr sWitRc rWit).map Prod.snd =
      some [.entryRemoved ⟨0, 0⟩, .dropKey 5, .dropValue 42,
        .keepaliveRelease] ∧
    (Ref.dropTr sWitRc rWit).map Prod.snd ≠
      some (specDropOrder ⟨0, 0⟩ (5 : Nat) (42 : Nat)) := by
  constructor
  · rfl
  · decide

/-- C1, amended: when the last `Ref` to an entry is dropped, the effects
occur in this order — the entry is removed from the map, then the KEY is
dropped, then the VALUE is dropped, and finally the container-keepalive
token for that entry is released. -/
theorem claim_C1_amended {K V : Type} [DecidableEq K] (s : RcState K V)
    (r : Ref) (e : Entry K (Counted (RcVal V)))
    (hget : s.map.slots.get r.handle = some e) (h1 : e.value.refcount = 1)
    (hmem : (e.hash, r.handle) ∈ s.map.index) :
    (Ref.dropTr s r).map Prod.snd =
      some [.entryRemoved r.handle, .dropKey e.key,
        .dropValue e.value.value.value, .keepaliveRelease] := by
  unfold Ref.dropTr
  rw [CountedHashMap.putC_removed hget h1 hmem]
  rfl

/-- Witness for the amended C1. -/
theorem claim_C1_amended_witness :
    (Ref.dropTr sWitRc rWit).map Prod.snd =
      some [.entryRemoved ⟨0, 0⟩, .dropKey 5, .dropValue 42,
        .keepaliveRelease] :=
  claim_C1_amended sWitRc rWit ⟨5, ⟨1, ⟨42⟩⟩, 0⟩ rfl rfl (by decide)

/-- C2, counterexample: the structural `remove` removes the slot FIRST
and only then unlinks the index element, so its trace `[slotRemove,
indexUnlink]` differs from the claimed order `[indexUnlink, slotRemove]`
(`specRemoveOrder`). -/
theorem claim_C2_counterexample :
    (mWitA.removeTr ⟨0, 0⟩).eventsOf =
      some [.slotRemove ⟨0, 0⟩, .indexUnlink 0 ⟨0, 0⟩] ∧
    (mWitA.removeTr ⟨0, 0⟩).eventsOf ≠
      some (specRemoveOrder 0 ⟨0, 0⟩) := by
  constructor
  · rfl
  · decide

/-- C2, amended: for every handle resolving to a live slot (with its
index element present, as every reachable map guarantees), `remove`
removes the slot first — obtaining the stored entry and its hash — then
unlinks the index element for that slot, and yields the owned `(K, V)`
pair to the caller. -/
theorem claim_C2_amended {K V : Type} [DecidableEq K]
    (m : HandleHashMap K V) (h : DefaultKey) (e : Entry K V)
    (hget : m.slots.get h = some e) (hmem : (e.hash, h) ∈ m.index) :
    m.removeTr h = .removed e.key e.value
      ⟨eraseFirst (fun p => p.1 == e.hash && p.2 == h) m.index,
        ⟨m.slots.slots.set h.idx ⟨h.gen, none⟩⟩⟩
      [.slotRemove h, .indexUnlink e.hash h] :=
  HandleHashMap.removeTr_spec hget hmem

/-- Witness for the amended C2. -/
theorem claim_C2_amended_witness :
    mWitA.removeTr ⟨0, 0⟩ = .removed 5 42
      ⟨eraseFirst (fun p => p.1 == 0 && p.2 == (⟨0, 0⟩ : DefaultKey))
        mWitA.index, ⟨mWitA.slots.slots.set 0 ⟨0, none⟩⟩⟩
      [.slotRemove ⟨0, 0⟩, .indexUnlink 0 ⟨0, 0⟩] :=
  claim_C2_amended mWitA ⟨0, 0⟩ ⟨5, 42, 0⟩ rfl (by decide)

/-- C8: a linear token disposed of by dropping (letting it go out of
scope instead of returning it to `put`) runs `Token`'s drop glue, which
panics; in particular the concrete program that acquires a token and
then drops it panics with the token-leak message, while acquiring and
returning one succeeds. -/
theorem claim_C8_token_drop (s : TokSt) :
    (0 < s.held → tokRun s [.dropTok] = .error tokenDropMsg) ∧
    tokRun ⟨0, 0⟩ [.get, .dropTok] = .error tokenDropMsg ∧
    tokRun ⟨0, 0⟩ [.get, .put] = .ok ⟨0, 0⟩ := by
  refine ⟨?_, rfl, rfl⟩
  intro hpos
  have hne : ¬ (s.held = 0) := by omega
  simp only [tokRun, tokStep, if_neg hne]
  rfl

/-- Witness for C8 at a held token. -/
theorem claim_C8_token_drop_witness :
    tokRun ⟨5, 2⟩ [.dropTok] = .error tokenDropMsg :=
  (claim_C8_token_drop ⟨5, 2⟩).1 (by decide)

/-- C9: the accessors `Ref::key`, `Ref::value` and `Ref::value_mut` fail
with `WrongMap` whenever the supplied map is not the `Ref`'s owning
container, and succeed — returning the borrowed key or value — when it
is (and the entry is live, as it always is for a real `Ref`). -/
theorem claim_C9_owner_identity {K V : Type} [DecidableEq K] (r : Ref)
    (m : RcState K V) :
    (r.owner ≠ m.id →
      r.keyA m = .error ⟨⟩ ∧ r.valueA m = .error ⟨⟩ ∧
        r.valueMutA m = .error ⟨⟩) ∧
    (∀ e : Entry K (Counted (RcVal V)), r.owner = m.id →
      m.map.slots.get r.handle = some e →
      r.keyA m = .ok e.key ∧ r.valueA m = .ok e.value.value.value ∧
        r.valueMutA m = .ok e.value.value.value) := by
  constructor
  · intro hne
    refine ⟨?_, ?_, ?_⟩
    · rw [Ref.keyA, if_neg hne]
    · rw [Ref.valueA, if_neg hne]
    · rw [Ref.valueMutA, if_pos hne]
  · intro e heq hget
    have hkey : m.map.handleKey r.handle = some e.key := by
      rw [HandleHashMap.handleKey, hget]
      rfl
    have hval : Ref.countedValueRef m.map r.handle = some e.value.value := by
      rw [Ref.countedValueRef, CountedHashMap.handleValue_eq hget]
      rfl
    have hne2 : ¬ (r.owner ≠ m.id) := fun hh => hh heq
    refine ⟨?_, ?_, ?_⟩
    · rw [Ref.keyA, if_pos heq, hkey]
    · rw [Ref.valueA, if_pos heq, hval]
    · rw [Ref.valueMutA, if_neg hne2, if_pos heq, hval]

/-- Witness for C9: a foreign container is rejected, the owning one is
accepted. -/
theorem claim_C9_owner_identity_witness :
    (rWit.keyA sWitOther = .error ⟨⟩ ∧ rWit.valueA sWitOther = .error ⟨⟩ ∧
      rWit.valueMutA sWitOther = .error ⟨⟩) ∧
    (rWit.keyA sWitRc = .ok 5 ∧ rWit.valueA sWitRc = .ok 42 ∧
      rWit.valueMutA sWitRc = .ok 42) := by
  constructor
  · exact (claim_C9_owner_identity rWit sWitOther).1 (by decide)
  · exact (claim_C9_owner_identity rWit sWitRc).2 ⟨5, ⟨1, ⟨42⟩⟩, 0⟩ rfl rfl

/-- C10: when `insert(k, v)` fails with `DuplicateKey`, the supplied key
and value are consumed and destroyed rather than returned: at the
structural layer the pre-built entry `{k, v, hash}` is dropped (the
`dropEntry` event) and the error carries no key or value; at the public
layer the value moved into the lazy constructor is dropped (`dropValue`)
and the keepalive strong count is unchanged, so no keepalive token was
ever acquired. -/
theorem claim_C10_duplicate_consumes {K V : Type} [DecidableEq K]
    (hashF : K → Nat) (m : HandleHashMap K V) (s : RcState K V) (k : K)
    (v v2 : V) :
    (HandleHashMap.containsKey hashF m k = true →
      m.insertTr hashF k v =
        (.error .DuplicateKey, m,
          [.buildEntry k v (hashF k), .dropEntry k v (hashF k)])) ∧
    (HandleHashMap.containsKey hashF s.map k = true →
      s.insertR hashF k v2 =
        some (.error .DuplicateKey, ⟨s.id, s.map, s.strong⟩,
          [.dropValue v2])) := by
  constructor
  · intro hc
    exact HandleHashMap.insertTr_duplicate hashF hc v
  · intro hc
    unfold RcState.insertR
    rw [CountedHashMap.insertWithC_duplicate hashF hc _ s.strong]

/-- Witness for C10 at concrete duplicate inserts. -/
theorem claim_C10_duplicate_consumes_witness :
    mWitA.insertTr hfConst 5 99 =
      (.error .DuplicateKey, mWitA,
        [.buildEntry 5 99 0, .dropEntry 5 99 0]) ∧
    sWitRc.insertR hfConst 5 77 =
      some (.error .DuplicateKey, ⟨7, sWitRc.map, 3⟩, [.dropValue 77]) := by
  constructor
  · exact (claim_C10_duplicate_consumes hfConst mWitA sWitRc 5 99 77).1
      (by decide)
  · exact (claim_C10_duplicate_consumes hfConst mWitA sWitRc 5 99 77).2
      (by decide)

end RcHashMap
